import Mathlib

/-!
# Verification of the reflow scheduling engine

A shallow embedding of the production-schedule reflow engine
(`src/utils/shift-calculator.ts`, `src/utils/shift-calendar.ts`,
`src/reflow/topological-sort.ts`) together with proofs and refutations of
the specification's claims about it.

Modelling conventions:
* An *instant* is a `Nat`: whole minutes elapsed since a fixed epoch placed
  at a Sunday 00:00 of the work center's local civil time.  The source keeps
  Luxon `DateTime` values and compares them by their underlying timestamp;
  minute arithmetic (`plus({minutes: 1})`, `diff(..., 'minutes')`) becomes
  `Nat` addition and `Int` subtraction.  The source converts Luxon weekdays
  (1 = Monday … 7 = Sunday) to schema weekdays (0 = Sunday … 6 = Saturday)
  via `weekday % 7`; with the epoch anchored on a Sunday the schema weekday
  of an instant `t` is directly `t / 1440 % 7`.
* JavaScript `Map`s keyed by strings are association lists kept in insertion
  order; `Map.set` on an existing key updates the entry in place, which the
  embedding mirrors.
* Thrown JavaScript errors become `Except` error values; the error payloads
  keep the identifiers the messages carry, not the message formatting.
-/

namespace Reflow

/-- A recurring weekly shift of a work center (`ShiftSchema`):
`dayOfWeek` is 0 = Sunday … 6 = Saturday, hour bounds are whole hours. -/
structure Shift where
  dayOfWeek : Nat
  startHour : Nat
  endHour : Nat
deriving DecidableEq, Repr

/-- A maintenance window `[startDate, endDate]` of a work center
(`MaintenanceWindowSchema`; the optional human-readable `reason` field is
never read by the engine and is omitted). -/
structure MaintenanceWindow where
  startDate : Nat
  endDate : Nat
deriving DecidableEq, Repr

/-- A work center (`WorkCenterDataSchema`). -/
structure WorkCenter where
  name : String
  shifts : List Shift
  maintenanceWindows : List MaintenanceWindow
deriving DecidableEq, Repr

/-- A work order (`WorkOrderDataSchema`; `manufacturingOrderId` is never
read by the scheduling engine and is omitted). -/
structure WorkOrder where
  workOrderNumber : String
  workCenterId : String
  startDate : Nat
  endDate : Nat
  durationMinutes : Nat
  isMaintenance : Bool
  dependsOnWorkOrderIds : List String
deriving DecidableEq, Repr

/-- Minutes past local midnight of an instant (`hour * 60 + minute`). -/
def timeOfDayMinutes (t : Nat) : Nat := t % 1440

/-- Schema weekday (0 = Sunday … 6 = Saturday) of an instant; the source's
`dateTime.weekday % 7` under the Sunday-anchored epoch. -/
def dayOfWeekOf (t : Nat) : Nat := t / 1440 % 7

/-! ## ShiftCalculator (`src/utils/shift-calculator.ts`) -/

/-- `ShiftCalculator.doesShiftSpanMidnight`. -/
def doesShiftSpanMidnight (s : Shift) : Bool :=
  decide (s.endHour ≤ s.startHour)

/-- `ShiftCalculator.isTimeInShift`. -/
def isTimeInShift (t : Nat) (s : Shift) : Bool :=
  let timeInMinutes := timeOfDayMinutes t
  let shiftStartMinutes := s.startHour * 60
  let shiftEndMinutes := s.endHour * 60
  if doesShiftSpanMidnight s then
    if dayOfWeekOf t == s.dayOfWeek then
      decide (shiftStartMinutes ≤ timeInMinutes)
    else
      decide (timeInMinutes < shiftEndMinutes)
  else
    decide (shiftStartMinutes ≤ timeInMinutes) && decide (timeInMinutes < shiftEndMinutes)

/-- `ShiftCalculator.getShiftsForDay`. -/
def getShiftsForDay (wc : WorkCenter) (d : Nat) : List Shift :=
  wc.shifts.filter (fun s => s.dayOfWeek == d)

/-- `ShiftCalculator.isInShift`: shifts of the current weekday, plus
midnight-spanning shifts of the previous weekday. -/
def isInShift (wc : WorkCenter) (t : Nat) : Bool :=
  let currentDayOfWeek := dayOfWeekOf t
  (getShiftsForDay wc currentDayOfWeek).any (fun s => isTimeInShift t s) ||
    (getShiftsForDay wc ((currentDayOfWeek + 6) % 7)).any
      (fun s => doesShiftSpanMidnight s && isTimeInShift t s)

/-- `ShiftCalculator.isInMaintenanceWindow` (inclusive bounds). -/
def isInMaintenanceWindow (wc : WorkCenter) (t : Nat) : Bool :=
  wc.maintenanceWindows.any (fun w => decide (w.startDate ≤ t) && decide (t ≤ w.endDate))

/-- `ShiftCalculator.isWorkingTime`. -/
def isWorkingTime (wc : WorkCenter) (t : Nat) : Bool :=
  !isInMaintenanceWindow wc t && isInShift wc t

/-- Minute-stepping loop of `ShiftCalculator.calculateEndDate`.  The fuel
argument is the number of loop iterations still allowed before the
10,000-iteration infinite-loop guard fires (`none` = the guard's throw). -/
def calculateEndDateAux (wc : WorkCenter) : Nat → Nat → Nat → Option Nat
  | _, current, 0 => some current
  | 0, _, _ + 1 => none
  | fuel + 1, current, remaining + 1 =>
    calculateEndDateAux wc fuel (current + 1)
      (if isWorkingTime wc current then remaining else remaining + 1)

/-- `ShiftCalculator.calculateEndDate`: walk minute by minute, consuming one
unit of `durationMinutes` per working minute, at most 10,000 minutes. -/
def calculateEndDate (wc : WorkCenter) (startDate durationMinutes : Nat) : Option Nat :=
  calculateEndDateAux wc 10000 startDate durationMinutes

/-- Hour-stepping loop of `ShiftCalculator.getNextValidStartTime`; the fuel
is the number of hour probes left inside the 30-day horizon. -/
def getNextValidStartTimeAux (wc : WorkCenter) : Nat → Nat → Option Nat
  | 0, _ => none
  | fuel + 1, current =>
    if isWorkingTime wc current then some current
    else getNextValidStartTimeAux wc fuel (current + 60)

/-- `ShiftCalculator.getNextValidStartTime`: first working instant on the
hour-step grid within 30 days (30 × 24 = 720 probes), else failure. -/
def getNextValidStartTime (wc : WorkCenter) (afterDate : Nat) : Option Nat :=
  getNextValidStartTimeAux wc 720 afterDate

/-! ## Shift membership as the specification words it (for claim C9) -/

/-- Shift membership written from the specification text (§4.1), for
comparison with the code's `isInShift`: half-open minute comparison
`start*60 ≤ tod < end*60` on the shift's weekday for non-spanning shifts;
for midnight-spanning shifts, `tod ≥ start*60` on the shift's weekday or
`tod < end*60` on the following weekday. -/
def specShiftMembership (t : Nat) (s : Shift) : Prop :=
  (s.endHour ≤ s.startHour ∧
    ((dayOfWeekOf t = s.dayOfWeek ∧ s.startHour * 60 ≤ timeOfDayMinutes t) ∨
      (dayOfWeekOf t = (s.dayOfWeek + 1) % 7 ∧ timeOfDayMinutes t < s.endHour * 60))) ∨
  (s.startHour < s.endHour ∧ dayOfWeekOf t = s.dayOfWeek ∧
    s.startHour * 60 ≤ timeOfDayMinutes t ∧ timeOfDayMinutes t < s.endHour * 60)

instance (t : Nat) (s : Shift) : Decidable (specShiftMembership t s) := by
  unfold specShiftMembership; infer_instance

theorem dayOfWeekOf_lt (t : Nat) : dayOfWeekOf t < 7 :=
  Nat.mod_lt _ (by omega)

/-- The code's shift membership coincides with the specification's
description whenever the shifts carry schema-valid weekdays (0–6). -/
theorem isInShift_iff (wc : WorkCenter) (t : Nat)
    (hdays : ∀ s ∈ wc.shifts, s.dayOfWeek ≤ 6) :
    isInShift wc t = true ↔ ∃ s ∈ wc.shifts, specShiftMembership t s := by
  have hd : dayOfWeekOf t < 7 := dayOfWeekOf_lt t
  unfold isInShift getShiftsForDay
  simp only [Bool.or_eq_true, List.any_eq_true, List.mem_filter, beq_iff_eq,
    Bool.and_eq_true]
  constructor
  · rintro (⟨s, ⟨hs, hsd⟩, hin⟩ | ⟨s, ⟨hs, hsd⟩, hspan, hin⟩)
    · refine ⟨s, hs, ?_⟩
      unfold isTimeInShift at hin
      unfold specShiftMembership
      by_cases hspan : doesShiftSpanMidnight s = true
      · rw [if_pos hspan, if_pos (by simpa using hsd.symm)] at hin
        unfold doesShiftSpanMidnight at hspan
        exact Or.inl ⟨by simpa using hspan, Or.inl ⟨hsd.symm, by simpa using hin⟩⟩
      · rw [if_neg hspan] at hin
        unfold doesShiftSpanMidnight at hspan
        simp only [Bool.and_eq_true, decide_eq_true_eq] at hin
        exact Or.inr ⟨by simpa using hspan, hsd.symm, hin.1, hin.2⟩
    · refine ⟨s, hs, ?_⟩
      have hsd6 : s.dayOfWeek ≤ 6 := hdays s hs
      have hne : dayOfWeekOf t ≠ s.dayOfWeek := by omega
      unfold isTimeInShift at hin
      rw [if_pos hspan, if_neg (by simpa using hne)] at hin
      unfold doesShiftSpanMidnight at hspan
      unfold specShiftMembership
      exact Or.inl ⟨by simpa using hspan,
        Or.inr ⟨by omega, by simpa using hin⟩⟩
  · rintro ⟨s, hs, hmem⟩
    have hsd6 : s.dayOfWeek ≤ 6 := hdays s hs
    unfold specShiftMembership at hmem
    rcases hmem with ⟨hspan, (⟨hday, hge⟩ | ⟨hday, hlt⟩)⟩ | ⟨hspan, hday, hge, hlt⟩
    · refine Or.inl ⟨s, ⟨hs, hday.symm⟩, ?_⟩
      unfold isTimeInShift
      rw [if_pos (by unfold doesShiftSpanMidnight; simpa using hspan),
        if_pos (by simpa using hday)]
      simpa using hge
    · refine Or.inr ⟨s, ⟨hs, by omega⟩, ?_, ?_⟩
      · unfold doesShiftSpanMidnight; simpa using hspan
      · unfold isTimeInShift
        have hne : dayOfWeekOf t ≠ s.dayOfWeek := by omega
        rw [if_pos (by unfold doesShiftSpanMidnight; simpa using hspan),
          if_neg (by simpa using hne)]
        simpa using hlt
    · refine Or.inl ⟨s, ⟨hs, hday.symm⟩, ?_⟩
      unfold isTimeInShift
      rw [if_neg (by unfold doesShiftSpanMidnight; simpa [Nat.not_le] using hspan)]
      simp only [Bool.and_eq_true, decide_eq_true_eq]
      exact ⟨hge, hlt⟩

/-- C9: `is_working(T)` is true iff `T` lies inside some shift under the
half-open convention (with midnight-spanning shifts attributed to the shift
weekday before midnight and the following weekday after it) and `T` lies
outside every maintenance window under the inclusive-endpoint convention. -/
theorem isWorkingTime_iff (wc : WorkCenter) (t : Nat)
    (hdays : ∀ s ∈ wc.shifts, s.dayOfWeek ≤ 6) :
    isWorkingTime wc t = true ↔
      (∃ s ∈ wc.shifts, specShiftMembership t s) ∧
        ∀ w ∈ wc.maintenanceWindows, ¬ (w.startDate ≤ t ∧ t ≤ w.endDate) := by
  unfold isWorkingTime
  rw [Bool.and_eq_true, Bool.not_eq_true', And.comm]
  apply and_congr
  · exact isInShift_iff wc t hdays
  · unfold isInMaintenanceWindow
    simp [List.any_eq_false]

/-- Witness for C9 at a concrete work center and instant: a Monday
08:00–17:00 shift admits Monday 08:30 (instant 1440 + 510 = minute 1950 of
the week starting Sunday). -/
theorem isWorkingTime_iff_witness :
    (∀ s ∈ (WorkCenter.mk "A" [⟨1, 8, 17⟩] []).shifts, s.dayOfWeek ≤ 6) ∧
      (isWorkingTime (WorkCenter.mk "A" [⟨1, 8, 17⟩] []) 1950 = true ↔
        (∃ s ∈ (WorkCenter.mk "A" [⟨1, 8, 17⟩] []).shifts, specShiftMembership 1950 s) ∧
          ∀ w ∈ (WorkCenter.mk "A" [⟨1, 8, 17⟩] []).maintenanceWindows,
            ¬ (w.startDate ≤ 1950 ∧ 1950 ≤ w.endDate)) :=
  ⟨by decide, isWorkingTime_iff (WorkCenter.mk "A" [⟨1, 8, 17⟩] []) 1950 (by decide)⟩

/-! ## ShiftCalendar (`src/utils/shift-calendar.ts`)

The `schedule` entry point is embedded together with its helpers.  The
constructor's no-shift validation (which `ShiftCalculator`'s constructor
performs) guards the entry point.  The dead local `workOrderMap` built at
the top of `schedule` (keys `wo-<index>`, never read) is omitted. -/

/-- Internal per-order scheduling state (`WorkOrderScheduleState`). -/
structure WorkOrderScheduleState where
  workOrder : WorkOrder
  scheduledStartDate : Nat
  scheduledEndDate : Nat
  isScheduled : Bool
deriving DecidableEq, Repr

/-- JavaScript `Map.get` over the insertion-ordered association list. -/
def mapGet {α : Type} (m : List (String × α)) (k : String) : Option α :=
  (m.find? (fun p => p.1 == k)).map (fun p => p.2)

/-- JavaScript `Map.set`: update the existing entry for the key in place
(a `Map` holds at most one entry per key), else append a fresh entry. -/
def mapSet {α : Type} (m : List (String × α)) (k : String) (v : α) : List (String × α) :=
  match m with
  | [] => [(k, v)]
  | p :: rest => if p.1 == k then (k, v) :: rest else p :: mapSet rest k v

/-- The errors `ShiftCalendar.schedule` and its helpers can throw.  Payloads
keep the identifiers the messages carry.  `conflictLoopFuel` is an artifact
of embedding the unbounded `while (hasConflict)` loop with fuel; it is
proved unreachable below (`getEarliestNonConflictingTime_ne_fuel`). -/
inductive SchedError
  | noShifts (centerName : String)
  | foreignOrders (centerName : String) (workOrderNumbers : List String)
  | depNotFound (workOrderNumber depId : String)
  | depNotScheduled (workOrderNumber depId : String)
  | noWorkingTime (startDate durationMinutes : Nat)
  | noValidStartTime (afterDate : Nat)
  | conflictLoopFuel
  | notScheduled (workOrderNumber : String)
deriving DecidableEq, Repr

/-- `ChangeReasonSchema`: discriminated union of schedule-change reasons. -/
inductive ChangeReason
  | dependency (dependsOnWorkOrderId dependsOnWorkOrderNumber : String)
  | maintenance (maintenanceWindowStart maintenanceWindowEnd : Nat)
  | workCenterConflict (conflictingWorkOrderId conflictingWorkOrderNumber : String)
  | noChange
deriving DecidableEq, Repr

/-- `ScheduleChangeSchema`. -/
structure ScheduleChange where
  workOrderNumber : String
  originalStartDate : Nat
  originalEndDate : Nat
  newStartDate : Nat
  newEndDate : Nat
  delayMinutes : Int
  reason : ChangeReason
  explanation : String
deriving DecidableEq, Repr

/-- The `summary` record of `ScheduleResult`. -/
structure ScheduleSummary where
  totalWorkOrders : Nat
  changedWorkOrders : Nat
  unchangedWorkOrders : Nat
  maintenanceWorkOrders : Nat
  totalDelayMinutes : Int
deriving DecidableEq, Repr

/-- `ScheduleResultSchema`. -/
structure ScheduleResult where
  scheduledWorkOrders : List WorkOrder
  changes : List ScheduleChange
  summary : ScheduleSummary
deriving DecidableEq, Repr

/-- `ShiftCalendar.hasTimeOverlap`: strict half-open overlap test. -/
def hasTimeOverlap (start1 end1 start2 end2 : Nat) : Bool :=
  decide (start1 < end2) && decide (end1 > start2)

/-- Loop body of `ShiftCalendar.getLatestDependencyEndTime`. -/
def getLatestDependencyEndTimeAux (wo : WorkOrder)
    (scheduledStates : List (String × WorkOrderScheduleState))
    (allWorkOrders : List WorkOrder) :
    List String → Option Nat → Except SchedError (Option Nat)
  | [], acc => .ok acc
  | depId :: rest, acc =>
    match allWorkOrders.find? (fun w => w.workOrderNumber == depId) with
    | none => .error (.depNotFound wo.workOrderNumber depId)
    | some depWorkOrder =>
      match mapGet scheduledStates depWorkOrder.workOrderNumber with
      | none => .error (.depNotScheduled wo.workOrderNumber depId)
      | some depState =>
        getLatestDependencyEndTimeAux wo scheduledStates allWorkOrders rest
          (match acc with
            | none => some depState.scheduledEndDate
            | some latest =>
              if depState.scheduledEndDate > latest then some depState.scheduledEndDate
              else some latest)

/-- `ShiftCalendar.getLatestDependencyEndTime`. -/
def getLatestDependencyEndTime (wo : WorkOrder)
    (scheduledStates : List (String × WorkOrderScheduleState))
    (allWorkOrders : List WorkOrder) : Except SchedError (Option Nat) :=
  getLatestDependencyEndTimeAux wo scheduledStates allWorkOrders
    wo.dependsOnWorkOrderIds none

/-- The `while (hasConflict)` loop of
`ShiftCalendar.getEarliestNonConflictingTime`, with fuel.  The `find?`
mirrors the `for … break` scan over the map in insertion order. -/
def getEarliestNonConflictingTimeAux (wc : WorkCenter) (durationMinutes : Nat)
    (scheduledStates : List (String × WorkOrderScheduleState)) :
    Nat → Nat → Except SchedError Nat
  | 0, _ => .error .conflictLoopFuel
  | fuel + 1, currentStart =>
    match calculateEndDate wc currentStart durationMinutes with
    | none => .error (.noWorkingTime currentStart durationMinutes)
    | some proposedEnd =>
      match scheduledStates.find? (fun p =>
          hasTimeOverlap currentStart proposedEnd
            p.2.scheduledStartDate p.2.scheduledEndDate) with
      | none => .ok currentStart
      | some p =>
        getEarliestNonConflictingTimeAux wc durationMinutes scheduledStates fuel
          p.2.scheduledEndDate

/-- `ShiftCalendar.getEarliestNonConflictingTime`.  Fuel `length + 1`
always suffices (`getEarliestNonConflictingTime_ne_fuel`), so this equals
the source's unbounded loop. -/
def getEarliestNonConflictingTime (wc : WorkCenter) (proposedStart durationMinutes : Nat)
    (scheduledStates : List (String × WorkOrderScheduleState)) : Except SchedError Nat :=
  getEarliestNonConflictingTimeAux wc durationMinutes scheduledStates
    (scheduledStates.length + 1) proposedStart

/-- The `if (dependencyEndTime && dependencyEndTime > earliestStart)`
raising step of `scheduleWorkOrder`. -/
def dependencyFloor (dependencyEndTime : Option Nat) (startDate : Nat) : Nat :=
  match dependencyEndTime with
  | some t => if t > startDate then t else startDate
  | none => startDate

/-- The candidate start computed by the first half of
`ShiftCalendar.scheduleWorkOrder`: the original start raised to the latest
dependency end, then raised by the exclusivity loop.  Split out of
`scheduleWorkOrder` so theorems can name this intermediate value. -/
def scheduleFloor (wc : WorkCenter) (wo : WorkOrder)
    (scheduledStates : List (String × WorkOrderScheduleState))
    (allWorkOrders : List WorkOrder) : Except SchedError Nat :=
  match (if wo.dependsOnWorkOrderIds.length > 0 then
      getLatestDependencyEndTime wo scheduledStates allWorkOrders
    else .ok none) with
  | .error e => .error e
  | .ok dependencyEndTime =>
    match getEarliestNonConflictingTime wc (dependencyFloor dependencyEndTime wo.startDate)
        wo.durationMinutes scheduledStates with
    | .error e => .error e
    | .ok conflictEndTime =>
      .ok (if conflictEndTime > dependencyFloor dependencyEndTime wo.startDate then
        conflictEndTime
      else dependencyFloor dependencyEndTime wo.startDate)

/-- `ShiftCalendar.scheduleWorkOrder`. -/
def scheduleWorkOrder (wc : WorkCenter) (wo : WorkOrder)
    (scheduledStates : List (String × WorkOrderScheduleState))
    (allWorkOrders : List WorkOrder) : Except SchedError WorkOrderScheduleState :=
  match scheduleFloor wc wo scheduledStates allWorkOrders with
  | .error e => .error e
  | .ok earliestStart =>
    match getNextValidStartTime wc earliestStart with
    | none => .error (.noValidStartTime earliestStart)
    | some validStartTime =>
      match calculateEndDate wc validStartTime wo.durationMinutes with
      | none => .error (.noWorkingTime validStartTime wo.durationMinutes)
      | some validEndTime => .ok ⟨wo, validStartTime, validEndTime, true⟩

/-- `allWorkOrders.indexOf(x)` (JS object identity becomes structural
equality; faithful whenever no two list entries are the same record, which
holds in all runs considered here). -/
def jsIndexOf (l : List WorkOrder) (wo : WorkOrder) : Int :=
  match l.enum.find? (fun p => p.2 == wo) with
  | some p => (p.1 : Int)
  | none => -1

/-- The `findIndex` inside `determineChangeReason`: first order whose
number equals `depId`, or whose own position printed as a string equals
`depId`. -/
def findDepIndex (allWorkOrders : List WorkOrder) (depId : String) : Int :=
  match allWorkOrders.enum.find? (fun p =>
      p.2.workOrderNumber == depId || toString p.1 == depId) with
  | some p => (p.1 : Int)
  | none => -1

/-- The dependency-scan loop of `determineChangeReason`: look the
`wo-<index>` alias up in the number-keyed state map. -/
def dependencyReasonLoop (latestDepEndTime : Nat)
    (scheduledStates : List (String × WorkOrderScheduleState))
    (allWorkOrders : List WorkOrder) : List String → Option ChangeReason
  | [] => none
  | depId :: rest =>
    let depIndex := findDepIndex allWorkOrders depId
    match mapGet scheduledStates ("wo-" ++ toString depIndex) with
    | some depState =>
      if depState.scheduledEndDate == latestDepEndTime then
        some (.dependency ("wo-" ++ toString depIndex) depState.workOrder.workOrderNumber)
      else dependencyReasonLoop latestDepEndTime scheduledStates allWorkOrders rest
    | none => dependencyReasonLoop latestDepEndTime scheduledStates allWorkOrders rest

/-- Conflict- and maintenance-scan tail of `determineChangeReason`. -/
def conflictOrMaintenanceReason (wc : WorkCenter) (wo : WorkOrder)
    (scheduledStates : List (String × WorkOrderScheduleState))
    (allWorkOrders : List WorkOrder) : ChangeReason :=
  match scheduledStates.find? (fun p =>
      p.1 != ("wo-" ++ toString (jsIndexOf allWorkOrders wo)) &&
        hasTimeOverlap wo.startDate wo.endDate
          p.2.scheduledStartDate p.2.scheduledEndDate) with
  | some p => .workCenterConflict p.1 p.2.workOrder.workOrderNumber
  | none =>
    match wc.maintenanceWindows.find? (fun w =>
        hasTimeOverlap wo.startDate wo.endDate w.startDate w.endDate) with
    | some w => .maintenance w.startDate w.endDate
    | none => .noChange

/-- `ShiftCalendar.determineChangeReason`. -/
def determineChangeReason (wc : WorkCenter) (wo : WorkOrder)
    (scheduledStates : List (String × WorkOrderScheduleState))
    (allWorkOrders : List WorkOrder) : Except SchedError ChangeReason :=
  if wo.dependsOnWorkOrderIds.length > 0 then
    match getLatestDependencyEndTime wo scheduledStates allWorkOrders with
    | .error e => .error e
    | .ok latestOpt =>
      match (match latestOpt with
        | some latest =>
          if latest > wo.startDate then
            dependencyReasonLoop latest scheduledStates allWorkOrders
              wo.dependsOnWorkOrderIds
          else none
        | none => none) with
      | some r => .ok r
      | none => .ok (conflictOrMaintenanceReason wc wo scheduledStates allWorkOrders)
  else .ok (conflictOrMaintenanceReason wc wo scheduledStates allWorkOrders)

/-- The `<hours>h <minutes>m` delay formatting of `generateExplanation`
(`Math.floor` is flooring division, JS `%` truncates toward zero). -/
def formatDelay (delayMinutes : Int) : String :=
  let hours := Int.fdiv delayMinutes 60
  let minutes := Int.tmod delayMinutes 60
  if hours > 0 then toString hours ++ "h " ++ toString minutes ++ "m"
  else toString minutes ++ "m"

/-- `ShiftCalendar.generateExplanation`.  The locale-formatted window
timestamps of the maintenance case are abstracted to decimal minutes. -/
def generateExplanation (reason : ChangeReason) (delayMinutes : Int) : String :=
  match reason with
  | .dependency _ num =>
    "Delayed by " ++ formatDelay delayMinutes ++ " - Must wait for work order " ++
      num ++ " to complete"
  | .maintenance ws we =>
    "Delayed by " ++ formatDelay delayMinutes ++
      " - Work paused for maintenance window (" ++ toString ws ++ " to " ++
      toString we ++ ")"
  | .workCenterConflict _ num =>
    "Delayed by " ++ formatDelay delayMinutes ++
      " - Work center busy with work order " ++ num
  | .noChange => "No schedule change required"

/-- `ShiftCalendar.createScheduleChange`. -/
def createScheduleChange (wc : WorkCenter) (wo : WorkOrder)
    (st : WorkOrderScheduleState)
    (scheduledStates : List (String × WorkOrderScheduleState))
    (allWorkOrders : List WorkOrder) : Except SchedError ScheduleChange :=
  let delayMinutes : Int := (st.scheduledStartDate : Int) - (wo.startDate : Int)
  if delayMinutes == 0 then
    .ok ⟨wo.workOrderNumber, wo.startDate, wo.endDate, st.scheduledStartDate,
      st.scheduledEndDate, delayMinutes, .noChange, "No schedule change required"⟩
  else
    match determineChangeReason wc wo scheduledStates allWorkOrders with
    | .error e => .error e
    | .ok reason =>
      .ok ⟨wo.workOrderNumber, wo.startDate, wo.endDate, st.scheduledStartDate,
        st.scheduledEndDate, delayMinutes, reason,
        generateExplanation reason delayMinutes⟩

/-- The fixed explanation attached to maintenance orders by `schedule`. -/
def maintenanceExplanation : String :=
  "Maintenance work order - cannot be rescheduled (fixed schedule)"

/-- The state `schedule` records for a maintenance order (kept unchanged). -/
def maintenanceState (wo : WorkOrder) : WorkOrderScheduleState :=
  ⟨wo, wo.startDate, wo.endDate, true⟩

/-- The change record `schedule` emits for a maintenance order. -/
def maintenanceChange (wo : WorkOrder) : ScheduleChange :=
  ⟨wo.workOrderNumber, wo.startDate, wo.endDate, wo.startDate, wo.endDate, 0,
    .noChange, maintenanceExplanation⟩

/-- The `maintenanceOrders.forEach` loop of `schedule`. -/
def placeMaintenance : List WorkOrder →
    List (String × WorkOrderScheduleState) → List ScheduleChange →
    List (String × WorkOrderScheduleState) × List ScheduleChange
  | [], states, changes => (states, changes)
  | wo :: rest, states, changes =>
    placeMaintenance rest (mapSet states wo.workOrderNumber (maintenanceState wo))
      (changes ++ [maintenanceChange wo])

/-- The `regularOrders.forEach` loop of `schedule`: place each movable
order, record its state, then classify the change (with the order's own
fresh state already in the map, as in the source). -/
def placeRegular (wc : WorkCenter) (allWorkOrders : List WorkOrder) :
    List WorkOrder → List (String × WorkOrderScheduleState) → List ScheduleChange →
    Except SchedError (List (String × WorkOrderScheduleState) × List ScheduleChange)
  | [], states, changes => .ok (states, changes)
  | wo :: rest, states, changes =>
    match scheduleWorkOrder wc wo states allWorkOrders with
    | .error e => .error e
    | .ok st =>
      match createScheduleChange wc wo st (mapSet states wo.workOrderNumber st)
          allWorkOrders with
      | .error e => .error e
      | .ok change =>
        placeRegular wc allWorkOrders rest (mapSet states wo.workOrderNumber st)
          (changes ++ [change])

/-- The object spread `{ ...wo, startDate, endDate }` emitted at the end of
`schedule`. -/
def withScheduledDates (wo : WorkOrder) (st : WorkOrderScheduleState) : WorkOrder :=
  { wo with startDate := st.scheduledStartDate, endDate := st.scheduledEndDate }

/-- The `workOrders.map` at the end of `schedule`: emit each input order
with its scheduled dates. -/
def buildScheduled (states : List (String × WorkOrderScheduleState)) :
    List WorkOrder → Except SchedError (List WorkOrder)
  | [] => .ok []
  | wo :: rest =>
    match mapGet states wo.workOrderNumber with
    | none => .error (.notScheduled wo.workOrderNumber)
    | some st =>
      match buildScheduled states rest with
      | .error e => .error e
      | .ok tail => .ok (withScheduledDates wo st :: tail)

/-- `ShiftCalendar.schedule` (including the constructor's no-shift check).
The source's local `maintenanceOrders`, `regularOrders`, `changedCount` and
`totalDelay` bindings are inlined. -/
def schedule (wc : WorkCenter) (workOrders : List WorkOrder) :
    Except SchedError ScheduleResult :=
  if wc.shifts.isEmpty then .error (.noShifts wc.name) else
  if !(workOrders.filter (fun wo => wo.workCenterId != wc.name)).isEmpty then
    .error (.foreignOrders wc.name
      ((workOrders.filter (fun wo => wo.workCenterId != wc.name)).map
        (fun wo => wo.workOrderNumber)))
  else
    match placeRegular wc workOrders (workOrders.filter (fun wo => !wo.isMaintenance))
        (placeMaintenance (workOrders.filter (fun wo => wo.isMaintenance)) [] []).1
        (placeMaintenance (workOrders.filter (fun wo => wo.isMaintenance)) [] []).2 with
    | .error e => .error e
    | .ok (states, changes) =>
      match buildScheduled states workOrders with
      | .error e => .error e
      | .ok scheduledWorkOrders =>
        .ok ⟨scheduledWorkOrders, changes,
          ⟨workOrders.length,
            (changes.filter (fun c => decide (c.delayMinutes > 0))).length,
            workOrders.length
              - (changes.filter (fun c => decide (c.delayMinutes > 0))).length,
            (workOrders.filter (fun wo => wo.isMaintenance)).length,
            changes.foldl (fun sum c => sum + c.delayMinutes) 0⟩⟩

/-! ## Basic lemmas about the map model and the calendar primitives -/

theorem mapGet_nil {α : Type} (k : String) : mapGet ([] : List (String × α)) k = none := rfl

theorem mapGet_cons {α : Type} (p : String × α) (m : List (String × α)) (k : String) :
    mapGet (p :: m) k = if p.1 == k then some p.2 else mapGet m k := by
  cases hp : p.1 == k with
  | true => simp [mapGet, List.find?_cons_of_pos, hp]
  | false => simp [mapGet, List.find?_cons_of_neg, hp]

theorem mapGet_eq_none {α : Type} {m : List (String × α)} {k : String} :
    mapGet m k = none ↔ ∀ p ∈ m, p.1 ≠ k := by
  unfold mapGet
  simp [List.find?_eq_none]

theorem mem_of_mapGet_eq_some {α : Type} {m : List (String × α)} {k : String} {v : α}
    (h : mapGet m k = some v) : (k, v) ∈ m := by
  induction m with
  | nil => simp [mapGet_nil] at h
  | cons p rest ih =>
    rw [mapGet_cons] at h
    by_cases hp : p.1 == k
    · rw [if_pos hp] at h
      have hk : p.1 = k := by simpa using hp
      have hv : p.2 = v := by simpa using h
      cases p
      simp_all
    · rw [if_neg hp] at h
      exact List.mem_cons_of_mem _ (ih h)

theorem mapGet_mapSet_self {α : Type} (m : List (String × α)) (k : String) (v : α) :
    mapGet (mapSet m k v) k = some v := by
  induction m with
  | nil => simp [mapSet, mapGet_cons]
  | cons p rest ih =>
    unfold mapSet
    by_cases hp : p.1 == k
    · rw [if_pos hp, mapGet_cons]
      simp
    · rw [if_neg hp, mapGet_cons, if_neg hp]
      exact ih

theorem mapGet_mapSet_ne {α : Type} (m : List (String × α)) (k : String) (v : α)
    {q : String} (h : q ≠ k) : mapGet (mapSet m k v) q = mapGet m q := by
  induction m with
  | nil =>
    have hkq : (k == q) = false := by simpa using fun hk => h hk.symm
    simp [mapSet, mapGet_cons, mapGet_nil, hkq]
  | cons p rest ih =>
    unfold mapSet
    by_cases hp : p.1 == k
    · have hk : p.1 = k := by simpa using hp
      have hkq : (k == q) = false := by simpa using fun hkk => h hkk.symm
      rw [if_pos hp, mapGet_cons, mapGet_cons]
      simp [hk, hkq]
    · rw [if_neg hp, mapGet_cons, mapGet_cons]
      by_cases hq : p.1 == q
      · simp [hq]
      · simp only [hq, if_false]
        exact ih

theorem mem_mapSet {α : Type} {m : List (String × α)} {k : String} {v : α} {p : String × α}
    (h : p ∈ mapSet m k v) : p = (k, v) ∨ p ∈ m := by
  induction m with
  | nil => simpa [mapSet] using h
  | cons q rest ih =>
    unfold mapSet at h
    by_cases hq : q.1 == k
    · rw [if_pos hq] at h
      rcases List.mem_cons.mp h with h1 | h1
      · exact Or.inl h1
      · exact Or.inr (List.mem_cons_of_mem _ h1)
    · rw [if_neg hq] at h
      rcases List.mem_cons.mp h with h1 | h1
      · exact Or.inr (h1 ▸ List.mem_cons_self _ _)
      · rcases ih h1 with h2 | h2
        · exact Or.inl h2
        · exact Or.inr (List.mem_cons_of_mem _ h2)

theorem calculateEndDateAux_le {wc : WorkCenter} :
    ∀ {fuel current remaining v : Nat},
      calculateEndDateAux wc fuel current remaining = some v → current ≤ v := by
  intro fuel
  induction fuel with
  | zero =>
    intro current remaining v h
    cases remaining with
    | zero => simp [calculateEndDateAux] at h; omega
    | succ r => simp [calculateEndDateAux] at h
  | succ fuel ih =>
    intro current remaining v h
    cases remaining with
    | zero => simp [calculateEndDateAux] at h; omega
    | succ r =>
      have := @ih _ _ v (by simpa [calculateEndDateAux] using h)
      omega

theorem getNextValidStartTimeAux_spec {wc : WorkCenter} :
    ∀ {fuel current v : Nat}, getNextValidStartTimeAux wc fuel current = some v →
      current ≤ v ∧ isWorkingTime wc v = true := by
  intro fuel
  induction fuel with
  | zero => intro current v h; simp [getNextValidStartTimeAux] at h
  | succ fuel ih =>
    intro current v h
    unfold getNextValidStartTimeAux at h
    by_cases hw : isWorkingTime wc current = true
    · rw [if_pos hw] at h
      cases h
      exact ⟨Nat.le_refl _, hw⟩
    · rw [if_neg hw] at h
      have := ih h
      exact ⟨by omega, this.2⟩

theorem getNextValidStartTime_le {wc : WorkCenter} {t v : Nat}
    (h : getNextValidStartTime wc t = some v) : t ≤ v ∧ isWorkingTime wc v = true :=
  getNextValidStartTimeAux_spec h

theorem getNextValidStartTime_of_working {wc : WorkCenter} {t : Nat}
    (h : isWorkingTime wc t = true) : getNextValidStartTime wc t = some t := by
  unfold getNextValidStartTime getNextValidStartTimeAux
  simp [h]

/-! ## The exclusivity-resolution loop -/

theorem getEarliestNonConflictingTimeAux_ok {wc : WorkCenter} {durationMinutes : Nat}
    {scheduledStates : List (String × WorkOrderScheduleState)} :
    ∀ {fuel currentStart v : Nat},
      getEarliestNonConflictingTimeAux wc durationMinutes scheduledStates fuel currentStart
          = .ok v →
      currentStart ≤ v ∧ ∃ e, calculateEndDate wc v durationMinutes = some e ∧
        ∀ p ∈ scheduledStates,
          hasTimeOverlap v e p.2.scheduledStartDate p.2.scheduledEndDate = false := by
  intro fuel
  induction fuel with
  | zero => intro c v h; simp [getEarliestNonConflictingTimeAux] at h
  | succ fuel ih =>
    intro c v h
    unfold getEarliestNonConflictingTimeAux at h
    split at h
    · exact absurd h (by simp)
    · rename_i proposedEnd hce
      split at h
      · rename_i hf
        cases h
        refine ⟨Nat.le_refl _, proposedEnd, hce, fun p hp => ?_⟩
        have := List.find?_eq_none.mp hf p hp
        simpa using this
      · rename_i p hf
        have hov := List.find?_some hf
        have hlt : c < p.2.scheduledEndDate := by
          unfold hasTimeOverlap at hov
          simp only [Bool.and_eq_true, decide_eq_true_eq] at hov
          exact hov.1
        have := ih h
        exact ⟨by omega, this.2⟩

theorem countP_lt_of_mem {α : Type} {l : List α} {x : α} {p q : α → Bool}
    (hx : x ∈ l) (hpx : p x = true) (hqx : q x = false)
    (himp : ∀ y ∈ l, q y = true → p y = true) : l.countP q < l.countP p := by
  induction l with
  | nil => simp at hx
  | cons a rest ih =>
    rcases List.mem_cons.mp hx with rfl | hx
    · rw [List.countP_cons, List.countP_cons]
      have hle : rest.countP q ≤ rest.countP p :=
        List.countP_mono_left (fun y hy => himp y (List.mem_cons_of_mem _ hy))
      simp only [hpx, hqx]
      simp
      omega
    · rw [List.countP_cons, List.countP_cons]
      have hlt : rest.countP q < rest.countP p :=
        ih hx (fun y hy => himp y (List.mem_cons_of_mem _ hy))
      have hqle : (if q a then 1 else 0) ≤ (if p a then 1 else 0) := by
        by_cases hqa : q a = true
        · simp [hqa, himp a (List.mem_cons_self _ _) hqa]
        · simp [hqa]
      omega

theorem getEarliestNonConflictingTimeAux_ne_fuel {wc : WorkCenter} {durationMinutes : Nat}
    {scheduledStates : List (String × WorkOrderScheduleState)} :
    ∀ {fuel currentStart : Nat},
      scheduledStates.countP (fun p => decide (currentStart < p.2.scheduledEndDate)) < fuel →
      getEarliestNonConflictingTimeAux wc durationMinutes scheduledStates fuel currentStart
        ≠ .error .conflictLoopFuel := by
  intro fuel
  induction fuel with
  | zero => intro c h; omega
  | succ fuel ih =>
    intro c hcount
    unfold getEarliestNonConflictingTimeAux
    split
    · simp
    · rename_i proposedEnd hce
      split
      · simp
      · rename_i p hf
        have hov := List.find?_some hf
        have hmem : p ∈ scheduledStates := List.mem_of_find?_eq_some hf
        have hlt : c < p.2.scheduledEndDate := by
          unfold hasTimeOverlap at hov
          simp only [Bool.and_eq_true, decide_eq_true_eq] at hov
          exact hov.1
        have hstrict : scheduledStates.countP
              (fun q => decide (p.2.scheduledEndDate < q.2.scheduledEndDate))
            < scheduledStates.countP (fun q => decide (c < q.2.scheduledEndDate)) := by
          refine countP_lt_of_mem hmem (by simpa using hlt) (by simp) ?_
          intro y _ hy
          simp only [decide_eq_true_eq] at hy ⊢
          omega
        exact ih (by omega)

theorem getEarliestNonConflictingTime_ne_fuel (wc : WorkCenter)
    (proposedStart durationMinutes : Nat)
    (scheduledStates : List (String × WorkOrderScheduleState)) :
    getEarliestNonConflictingTime wc proposedStart durationMinutes scheduledStates
      ≠ .error .conflictLoopFuel := by
  apply getEarliestNonConflictingTimeAux_ne_fuel
  have := @List.countP_le_length _
    (fun p : String × WorkOrderScheduleState => decide (proposedStart < p.2.scheduledEndDate))
    scheduledStates
  omega

theorem getEarliestNonConflictingTimeAux_cases {wc : WorkCenter} {durationMinutes : Nat}
    {scheduledStates : List (String × WorkOrderScheduleState)} :
    ∀ {fuel currentStart : Nat},
      (∃ v, getEarliestNonConflictingTimeAux wc durationMinutes scheduledStates fuel
          currentStart = .ok v) ∨
      getEarliestNonConflictingTimeAux wc durationMinutes scheduledStates fuel currentStart
        = .error .conflictLoopFuel ∨
      ∃ t, getEarliestNonConflictingTimeAux wc durationMinutes scheduledStates fuel
          currentStart = .error (.noWorkingTime t durationMinutes) ∧
        calculateEndDate wc t durationMinutes = none := by
  intro fuel
  induction fuel with
  | zero => intro c; simp [getEarliestNonConflictingTimeAux]
  | succ fuel ih =>
    intro c
    unfold getEarliestNonConflictingTimeAux
    split
    · rename_i hce
      exact Or.inr (Or.inr ⟨c, rfl, hce⟩)
    · rename_i proposedEnd hce
      split
      · exact Or.inl ⟨c, rfl⟩
      · exact ih

/-- C10: the `while (hasConflict)` loop of `getEarliestNonConflictingTime`
terminates successfully whenever every inner `calculateEndDate` call
returns: an overlap forces the candidate start strictly below the
conflicting order's scheduled end, so every advance strictly shrinks the
set of placed orders ending after the candidate, and fuel `length + 1`
provably suffices. -/
theorem getEarliestNonConflictingTime_terminates (wc : WorkCenter)
    (proposedStart durationMinutes : Nat)
    (scheduledStates : List (String × WorkOrderScheduleState))
    (hcalc : ∀ t, (calculateEndDate wc t durationMinutes).isSome = true) :
    ∃ v, getEarliestNonConflictingTime wc proposedStart durationMinutes scheduledStates
      = .ok v := by
  rcases @getEarliestNonConflictingTimeAux_cases wc durationMinutes scheduledStates
      (scheduledStates.length + 1) proposedStart with
    h | h | ⟨t, _, hnone⟩
  · exact h
  · exact absurd h (getEarliestNonConflictingTime_ne_fuel wc proposedStart durationMinutes
      scheduledStates)
  · have := hcalc t
    rw [hnone] at this
    simp at this

/-- Work center with a midnight-spanning shift on every weekday: every
instant is working time. -/
def centerAllWeek : WorkCenter :=
  ⟨"W", [⟨0, 0, 0⟩, ⟨1, 0, 0⟩, ⟨2, 0, 0⟩, ⟨3, 0, 0⟩, ⟨4, 0, 0⟩, ⟨5, 0, 0⟩, ⟨6, 0, 0⟩], []⟩

theorem centerAllWeek_working (t : Nat) : isWorkingTime centerAllWeek t = true := by
  have hd : dayOfWeekOf t < 7 := dayOfWeekOf_lt t
  unfold isWorkingTime isInMaintenanceWindow isInShift
  simp only [centerAllWeek, List.any_nil, Bool.not_false, Bool.true_and]
  refine Bool.or_eq_true_iff.mpr (Or.inl ?_)
  rw [List.any_eq_true]
  refine ⟨⟨dayOfWeekOf t, 0, 0⟩, ?_, ?_⟩
  · unfold getShiftsForDay
    simp only [centerAllWeek, List.mem_filter]
    refine ⟨?_, by simp⟩
    have hcase : dayOfWeekOf t = 0 ∨ dayOfWeekOf t = 1 ∨ dayOfWeekOf t = 2 ∨
        dayOfWeekOf t = 3 ∨ dayOfWeekOf t = 4 ∨ dayOfWeekOf t = 5 ∨ dayOfWeekOf t = 6 := by
      omega
    rcases hcase with h | h | h | h | h | h | h <;> rw [h] <;> simp
  · unfold isTimeInShift doesShiftSpanMidnight
    simp

theorem calculateEndDateAux_allWeek :
    ∀ {fuel current remaining : Nat}, remaining ≤ fuel →
      calculateEndDateAux centerAllWeek fuel current remaining = some (current + remaining) := by
  intro fuel
  induction fuel with
  | zero =>
    intro current remaining h
    have : remaining = 0 := by omega
    subst this
    simp [calculateEndDateAux]
  | succ fuel ih =>
    intro current remaining h
    cases remaining with
    | zero => simp [calculateEndDateAux]
    | succ r =>
      unfold calculateEndDateAux
      rw [centerAllWeek_working current]
      simp only [if_true]
      rw [ih (by omega)]
      congr 1
      omega

/-- Witness for C10: a concrete center on which every minute is working
time, a 5-minute order, and one placed order. -/
theorem getEarliestNonConflictingTime_terminates_witness :
    (∀ t, (calculateEndDate centerAllWeek t 5).isSome = true) ∧
      ∃ v, getEarliestNonConflictingTime centerAllWeek 0 5
        [("Q", ⟨⟨"Q", "W", 0, 60, 60, false, []⟩, 0, 60, true⟩)] = .ok v :=
  ⟨fun t => by rw [calculateEndDate, calculateEndDateAux_allWeek (by omega)]; rfl,
    getEarliestNonConflictingTime_terminates centerAllWeek 0 5
      [("Q", ⟨⟨"Q", "W", 0, 60, 60, false, []⟩, 0, 60, true⟩)]
      (fun t => by rw [calculateEndDate, calculateEndDateAux_allWeek (by omega)]; rfl)⟩

/-! ## Postconditions of the per-order placement -/

theorem getLatestDependencyEndTimeAux_ok {wo : WorkOrder}
    {states : List (String × WorkOrderScheduleState)} {all : List WorkOrder} :
    ∀ {deps : List String} {acc : Option Nat} {r : Option Nat},
      getLatestDependencyEndTimeAux wo states all deps acc = .ok r →
      (∀ a, acc = some a → ∃ rr, r = some rr ∧ a ≤ rr) ∧
      (∀ depId ∈ deps, ∃ depWo depSt,
        all.find? (fun w => w.workOrderNumber == depId) = some depWo ∧
        mapGet states depWo.workOrderNumber = some depSt ∧
        ∃ rr, r = some rr ∧ depSt.scheduledEndDate ≤ rr) := by
  intro deps
  induction deps with
  | nil =>
    intro acc r h
    cases h
    exact ⟨fun a ha => ⟨a, ha, Nat.le_refl _⟩, by simp⟩
  | cons depId rest ih =>
    intro acc r h
    unfold getLatestDependencyEndTimeAux at h
    split at h
    · exact absurd h (by simp)
    · rename_i depWo hfind
      split at h
      · exact absurd h (by simp)
      · rename_i depSt hget
        have ihres := ih h
        have hnew : ∀ b, (match acc with
            | none => some depSt.scheduledEndDate
            | some latest =>
              if depSt.scheduledEndDate > latest then some depSt.scheduledEndDate
              else some latest) = some b →
            depSt.scheduledEndDate ≤ b ∧ ∀ a, acc = some a → a ≤ b := by
          intro b hb
          cases acc with
          | none =>
            simp only [] at hb
            cases hb
            exact ⟨Nat.le_refl _, by simp⟩
          | some latest =>
            simp only [] at hb
            by_cases hgt : depSt.scheduledEndDate > latest
            · rw [if_pos hgt] at hb
              cases hb
              exact ⟨Nat.le_refl _, fun a ha => by cases ha; omega⟩
            · rw [if_neg hgt] at hb
              cases hb
              exact ⟨by omega, fun a ha => by cases ha; omega⟩
        have hform : ∃ b, (match acc with
            | none => some depSt.scheduledEndDate
            | some latest =>
              if depSt.scheduledEndDate > latest then some depSt.scheduledEndDate
              else some latest) = some b := by
          cases acc with
          | none => exact ⟨depSt.scheduledEndDate, rfl⟩
          | some latest =>
            simp only []
            by_cases hgt : depSt.scheduledEndDate > latest
            · exact ⟨depSt.scheduledEndDate, if_pos hgt⟩
            · exact ⟨latest, if_neg hgt⟩
        obtain ⟨b, hb⟩ := hform
        constructor
        · intro a ha
          obtain ⟨rr, hr, hle⟩ := ihres.1 b hb
          refine ⟨rr, hr, ?_⟩
          have := (hnew b hb).2 a ha
          omega
        · intro d hd
          rcases List.mem_cons.mp hd with rfl | hd
          · obtain ⟨rr, hr, hle⟩ := ihres.1 b hb
            exact ⟨depWo, depSt, hfind, hget, rr, hr, by
              have := (hnew b hb).1
              omega⟩
          · exact ihres.2 d hd

theorem dependencyFloor_start_le (d : Option Nat) (s : Nat) : s ≤ dependencyFloor d s := by
  cases d with
  | none => simp [dependencyFloor]
  | some t =>
    simp only [dependencyFloor]
    by_cases hgt : t > s
    · rw [if_pos hgt]; omega
    · rw [if_neg hgt]

theorem dependencyFloor_le (t s : Nat) : t ≤ dependencyFloor (some t) s := by
  simp only [dependencyFloor]
  by_cases hgt : t > s
  · rw [if_pos hgt]
  · rw [if_neg hgt]; omega

theorem scheduleFloor_ok {wc : WorkCenter} {wo : WorkOrder}
    {states : List (String × WorkOrderScheduleState)} {all : List WorkOrder} {f : Nat}
    (h : scheduleFloor wc wo states all = .ok f) :
    wo.startDate ≤ f ∧
    (∀ depId ∈ wo.dependsOnWorkOrderIds, ∃ depWo depSt,
      all.find? (fun w => w.workOrderNumber == depId) = some depWo ∧
      mapGet states depWo.workOrderNumber = some depSt ∧
      depSt.scheduledEndDate ≤ f) ∧
    ∃ e, calculateEndDate wc f wo.durationMinutes = some e ∧
      ∀ p ∈ states, hasTimeOverlap f e p.2.scheduledStartDate p.2.scheduledEndDate = false := by
  unfold scheduleFloor at h
  cases hlatest : (if wo.dependsOnWorkOrderIds.length > 0 then
      getLatestDependencyEndTime wo states all
    else .ok none) with
  | error e => rw [hlatest] at h; exact absurd h (by simp)
  | ok depEnd =>
    simp only [hlatest] at h
    cases hconf : getEarliestNonConflictingTime wc (dependencyFloor depEnd wo.startDate)
        wo.durationMinutes states with
    | error e => simp only [hconf] at h; exact absurd h (by simp)
    | ok conflictEnd =>
      simp only [hconf] at h
      have hf : (if conflictEnd > dependencyFloor depEnd wo.startDate then conflictEnd
          else dependencyFloor depEnd wo.startDate) = f := Except.ok.inj h
      unfold getEarliestNonConflictingTime at hconf
      obtain ⟨hge, e, hcalc, hnov⟩ := getEarliestNonConflictingTimeAux_ok hconf
      have hfl : dependencyFloor depEnd wo.startDate ≤ conflictEnd := hge
      have hfeq : f = conflictEnd := by
        by_cases hc : conflictEnd > dependencyFloor depEnd wo.startDate
        · rw [if_pos hc] at hf; omega
        · rw [if_neg hc] at hf; omega
      subst hfeq
      have hstart : wo.startDate ≤ f := by
        have := dependencyFloor_start_le depEnd wo.startDate
        omega
      refine ⟨hstart, ?_, e, hcalc, hnov⟩
      intro d hd
      have hdl : wo.dependsOnWorkOrderIds.length > 0 := by
        cases hdn : wo.dependsOnWorkOrderIds with
        | nil => rw [hdn] at hd; simp at hd
        | cons a l => simp [hdn]
      rw [if_pos hdl] at hlatest
      obtain ⟨-, hdeps⟩ := getLatestDependencyEndTimeAux_ok hlatest
      obtain ⟨depWo, depSt, hfind, hget, rr, hrr, hle⟩ := hdeps d hd
      refine ⟨depWo, depSt, hfind, hget, ?_⟩
      subst hrr
      have := dependencyFloor_le rr wo.startDate
      omega

theorem scheduleWorkOrder_ok {wc : WorkCenter} {wo : WorkOrder}
    {states : List (String × WorkOrderScheduleState)} {all : List WorkOrder}
    {st : WorkOrderScheduleState}
    (h : scheduleWorkOrder wc wo states all = .ok st) :
    st.workOrder = wo ∧
    ∃ f, scheduleFloor wc wo states all = .ok f ∧ f ≤ st.scheduledStartDate ∧
      getNextValidStartTime wc f = some st.scheduledStartDate ∧
      isWorkingTime wc st.scheduledStartDate = true ∧
      calculateEndDate wc st.scheduledStartDate wo.durationMinutes
        = some st.scheduledEndDate := by
  unfold scheduleWorkOrder at h
  split at h
  · exact absurd h (by simp)
  · rename_i f hf
    split at h
    · exact absurd h (by simp)
    · rename_i validStart hvalid
      split at h
      · exact absurd h (by simp)
      · rename_i validEnd hend
        cases h
        obtain ⟨hle, hwork⟩ := getNextValidStartTime_le hvalid
        exact ⟨rfl, f, hf, hle, hvalid, hwork, hend⟩

/-- C1 (amended): whenever the snap-to-working-time step returns the
conflict-resolved floor unchanged — in particular whenever that floor is
already working time — the interval `scheduleWorkOrder` assigns is disjoint
from the interval of every already-placed order.  (The unamended pairwise
claim fails: two fixed maintenance orders may overlap, and after a snap the
source does not re-check exclusivity; see the counterexample.) -/
theorem scheduleWorkOrder_no_snap_disjoint (wc : WorkCenter) (wo : WorkOrder)
    (states : List (String × WorkOrderScheduleState)) (all : List WorkOrder)
    (f : Nat) (st : WorkOrderScheduleState)
    (hf : scheduleFloor wc wo states all = .ok f)
    (hw : isWorkingTime wc f = true)
    (hs : scheduleWorkOrder wc wo states all = .ok st) :
    ∀ p ∈ states, hasTimeOverlap st.scheduledStartDate st.scheduledEndDate
      p.2.scheduledStartDate p.2.scheduledEndDate = false := by
  obtain ⟨hwo, f2, hf2, hle, hnext, hwork, hcalc⟩ := scheduleWorkOrder_ok hs
  rw [hf] at hf2
  cases hf2
  have hstart : st.scheduledStartDate = f := by
    have := getNextValidStartTime_of_working hw
    rw [this] at hnext
    cases hnext
    rfl
  obtain ⟨hsf, hdeps, e, hcalc2, hnov⟩ := scheduleFloor_ok hf
  intro p hp
  rw [hstart]
  rw [hstart] at hcalc
  have he : e = st.scheduledEndDate := by
    rw [hcalc] at hcalc2
    cases hcalc2
    rfl
  rw [← he]
  exact hnov p hp

/-- Work center named "A" with a single Sunday 01:00–02:00 shift (week
minutes 60–119 are its working time). -/
def centerHourShift : WorkCenter := ⟨"A", [⟨0, 1, 2⟩], []⟩

/-- Fixed maintenance order occupying `[90, 95)`. -/
def maintBlock : WorkOrder := ⟨"M", "A", 90, 95, 5, true, []⟩

/-- Movable order originally proposed at 30 with 10 working minutes. -/
def movableEarly : WorkOrder := ⟨"R", "A", 30, 40, 10, false, []⟩

/-- C1 counterexample: the invocation succeeds and places the movable order
at `[90, 100)` — the conflict loop saw no overlap at floor 30, but the
snap to the first working hour lands at 90, inside the fixed maintenance
order's interval `[90, 95)`, and exclusivity is not re-checked.  Two
distinct placed orders on the same center therefore overlap. -/
theorem schedule_overlap_counterexample :
    (schedule centerHourShift [maintBlock, movableEarly]).map
        (fun r => r.scheduledWorkOrders.map
          (fun w => (w.workOrderNumber, w.startDate, w.endDate)))
      = .ok [("M", 90, 95), ("R", 90, 100)] ∧
    hasTimeOverlap 90 100 90 95 = true := ⟨rfl, rfl⟩

/-- Work center named "A" whose single Sunday 00:00–23:00 shift keeps week
minutes 0–1379 working. -/
def centerOpenSunday : WorkCenter := ⟨"A", [⟨0, 0, 23⟩], []⟩

/-- Witness for the amended C1 at a concrete placement: one placed order
`[0, 60)`, a movable order with floor 60 (already working time), placed at
`[60, 65)`, disjoint from the placed order. -/
theorem scheduleWorkOrder_no_snap_disjoint_witness :
    (scheduleFloor centerOpenSunday ⟨"R", "A", 60, 65, 5, false, []⟩
        [("Q", ⟨⟨"Q", "A", 0, 60, 60, false, []⟩, 0, 60, true⟩)]
        [⟨"Q", "A", 0, 60, 60, false, []⟩, ⟨"R", "A", 60, 65, 5, false, []⟩] = .ok 60) ∧
    isWorkingTime centerOpenSunday 60 = true ∧
    (scheduleWorkOrder centerOpenSunday ⟨"R", "A", 60, 65, 5, false, []⟩
        [("Q", ⟨⟨"Q", "A", 0, 60, 60, false, []⟩, 0, 60, true⟩)]
        [⟨"Q", "A", 0, 60, 60, false, []⟩, ⟨"R", "A", 60, 65, 5, false, []⟩]
      = .ok ⟨⟨"R", "A", 60, 65, 5, false, []⟩, 60, 65, true⟩) ∧
    ∀ p ∈ [("Q", (⟨⟨"Q", "A", 0, 60, 60, false, []⟩, 0, 60, true⟩ : WorkOrderScheduleState))],
      hasTimeOverlap 60 65 p.2.scheduledStartDate p.2.scheduledEndDate = false :=
  ⟨rfl, rfl, rfl,
    scheduleWorkOrder_no_snap_disjoint centerOpenSunday ⟨"R", "A", 60, 65, 5, false, []⟩
      [("Q", ⟨⟨"Q", "A", 0, 60, 60, false, []⟩, 0, 60, true⟩)]
      [⟨"Q", "A", 0, 60, 60, false, []⟩, ⟨"R", "A", 60, 65, 5, false, []⟩]
      60 ⟨⟨"R", "A", 60, 65, 5, false, []⟩, 60, 65, true⟩ rfl rfl rfl⟩

/-! ## Decomposing a successful `schedule` run -/

theorem placeMaintenance_changes :
    ∀ (l : List WorkOrder) (states : List (String × WorkOrderScheduleState))
      (changes : List ScheduleChange),
      (placeMaintenance l states changes).2 = changes ++ l.map maintenanceChange := by
  intro l
  induction l with
  | nil => intro states changes; simp [placeMaintenance]
  | cons wo rest ih =>
    intro states changes
    rw [placeMaintenance, ih]
    simp

theorem placeMaintenance_get_preserved :
    ∀ (l : List WorkOrder) (states : List (String × WorkOrderScheduleState))
      (changes : List ScheduleChange) (k : String),
      k ∉ l.map (fun wo => wo.workOrderNumber) →
      mapGet (placeMaintenance l states changes).1 k = mapGet states k := by
  intro l
  induction l with
  | nil => intro states changes k _; rfl
  | cons wo rest ih =>
    intro states changes k hk
    simp only [List.map_cons, List.mem_cons] at hk
    push_neg at hk
    rw [placeMaintenance, ih _ _ k hk.2, mapGet_mapSet_ne _ _ _ hk.1]

theorem placeMaintenance_get :
    ∀ (l : List WorkOrder) (states : List (String × WorkOrderScheduleState))
      (changes : List ScheduleChange),
      (l.map (fun wo => wo.workOrderNumber)).Nodup →
      ∀ wo ∈ l, mapGet (placeMaintenance l states changes).1 wo.workOrderNumber
        = some (maintenanceState wo) := by
  intro l
  induction l with
  | nil => intro _ _ _ _ hw; simp at hw
  | cons wo0 rest ih =>
    intro states changes hnd wo hw
    simp only [List.map_cons, List.nodup_cons] at hnd
    rcases List.mem_cons.mp hw with rfl | hw
    · rw [placeMaintenance, placeMaintenance_get_preserved rest _ _ _ hnd.1,
        mapGet_mapSet_self]

    · exact ih _ _ hnd.2 wo hw

theorem placeRegular_changes_prefix {wc : WorkCenter} {all : List WorkOrder} :
    ∀ {l : List WorkOrder} {states : List (String × WorkOrderScheduleState)}
      {changes : List ScheduleChange} {st2 ch2},
      placeRegular wc all l states changes = .ok (st2, ch2) →
      ∃ suffix, ch2 = changes ++ suffix := by
  intro l
  induction l with
  | nil =>
    intro states changes st2 ch2 h
    cases h
    exact ⟨[], by simp⟩
  | cons wo rest ih =>
    intro states changes st2 ch2 h
    unfold placeRegular at h
    split at h
    · exact absurd h (by simp)
    · rename_i st hst
      split at h
      · exact absurd h (by simp)
      · rename_i change hch
        obtain ⟨suffix, hsuffix⟩ := ih h
        exact ⟨change :: suffix, by simp [hsuffix]⟩

theorem placeRegular_get_preserved {wc : WorkCenter} {all : List WorkOrder} :
    ∀ {l : List WorkOrder} {states : List (String × WorkOrderScheduleState)}
      {changes : List ScheduleChange} {st2 ch2},
      placeRegular wc all l states changes = .ok (st2, ch2) →
      ∀ k, k ∉ l.map (fun wo => wo.workOrderNumber) → mapGet st2 k = mapGet states k := by
  intro l
  induction l with
  | nil =>
    intro states changes st2 ch2 h k _
    cases h
    rfl
  | cons wo rest ih =>
    intro states changes st2 ch2 h k hk
    simp only [List.map_cons, List.mem_cons] at hk
    push_neg at hk
    unfold placeRegular at h
    split at h
    · exact absurd h (by simp)
    · rename_i st hst
      split at h
      · exact absurd h (by simp)
      · rename_i change hch
        rw [ih h k hk.2, mapGet_mapSet_ne _ _ _ hk.1]

theorem placeRegular_steps {wc : WorkCenter} {all : List WorkOrder} :
    ∀ {l : List WorkOrder} {states : List (String × WorkOrderScheduleState)}
      {changes : List ScheduleChange} {st2 ch2},
      placeRegular wc all l states changes = .ok (st2, ch2) →
      (l.map (fun wo => wo.workOrderNumber)).Nodup →
      (∀ wo ∈ l, mapGet states wo.workOrderNumber = none) →
      ∀ wo ∈ l, ∃ statesAt st,
        scheduleWorkOrder wc wo statesAt all = .ok st ∧
        mapGet st2 wo.workOrderNumber = some st ∧
        ∀ k v, mapGet statesAt k = some v → mapGet st2 k = some v := by
  intro l
  induction l with
  | nil => intro _ _ _ _ _ _ _ wo hw; simp at hw
  | cons wo0 rest ih =>
    intro states changes st2 ch2 h hnd hdisj wo hw
    simp only [List.map_cons, List.nodup_cons] at hnd
    unfold placeRegular at h
    split at h
    · exact absurd h (by simp)
    · rename_i st hst
      split at h
      · exact absurd h (by simp)
      · rename_i change hch
        have hdisj2 : ∀ w ∈ rest, mapGet (mapSet states wo0.workOrderNumber st) w.workOrderNumber
            = none := by
          intro w hwr
          have hne : w.workOrderNumber ≠ wo0.workOrderNumber := by
            intro heq
            exact hnd.1 (heq ▸ List.mem_map_of_mem (fun x => x.workOrderNumber) hwr)
          rw [mapGet_mapSet_ne _ _ _ hne]
          exact hdisj w (List.mem_cons_of_mem _ hwr)
        rcases List.mem_cons.mp hw with rfl | hw
        · refine ⟨states, st, hst, ?_, ?_⟩
          · rw [placeRegular_get_preserved h _ hnd.1, mapGet_mapSet_self]
          · intro k v hkv
            have hkne : k ≠ wo.workOrderNumber := by
              intro heq
              rw [heq, hdisj wo (List.mem_cons_self _ _)] at hkv
              cases hkv
            have hknotin : k ∉ rest.map (fun w => w.workOrderNumber) := by
              intro hkin
              obtain ⟨w, hwr, hwk⟩ := List.mem_map.mp hkin
              rw [← hwk] at hkv
              rw [hdisj w (List.mem_cons_of_mem _ hwr)] at hkv
              cases hkv
            rw [placeRegular_get_preserved h _ hknotin, mapGet_mapSet_ne _ _ _ hkne]
            exact hkv
        · exact ih h hnd.2 hdisj2 wo hw

theorem buildScheduled_ok {states : List (String × WorkOrderScheduleState)} :
    ∀ {l : List WorkOrder} {out : List WorkOrder},
      buildScheduled states l = .ok out →
      out.length = l.length ∧
      ∀ (i : Nat) (wo : WorkOrder), l[i]? = some wo → ∃ st,
        mapGet states wo.workOrderNumber = some st ∧
        out[i]? = some (withScheduledDates wo st) := by
  intro l
  induction l with
  | nil =>
    intro out h
    cases h
    refine ⟨rfl, ?_⟩
    intro i wo hi
    simp at hi
  | cons wo0 rest ih =>
    intro out h
    unfold buildScheduled at h
    cases hget : mapGet states wo0.workOrderNumber with
    | none => simp only [hget] at h; exact absurd h (by simp)
    | some st =>
      simp only [hget] at h
      cases htail : buildScheduled states rest with
      | error e => simp only [htail] at h; exact absurd h (by simp)
      | ok tail =>
        simp only [htail] at h
        cases h
        obtain ⟨hlen, hpt⟩ := ih htail
        refine ⟨by simp [hlen], ?_⟩
        intro i wo hi
        cases i with
        | zero =>
          simp only [List.getElem?_cons_zero] at hi
          cases hi
          exact ⟨st, hget, by simp⟩
        | succ i =>
          simp only [List.getElem?_cons_succ] at hi
          obtain ⟨st2, hget2, hout2⟩ := hpt i wo hi
          exact ⟨st2, hget2, by simpa using hout2⟩

theorem schedule_ok_elim {wc : WorkCenter} {wos : List WorkOrder} {res : ScheduleResult}
    (h : schedule wc wos = .ok res) :
    ∃ states changes,
      placeRegular wc wos (wos.filter (fun wo => !wo.isMaintenance))
          (placeMaintenance (wos.filter (fun wo => wo.isMaintenance)) [] []).1
          (placeMaintenance (wos.filter (fun wo => wo.isMaintenance)) [] []).2
        = .ok (states, changes) ∧
      buildScheduled states wos = .ok res.scheduledWorkOrders ∧
      res.changes = changes := by
  unfold schedule at h
  by_cases hshifts : wc.shifts.isEmpty
  · rw [if_pos hshifts] at h
    exact absurd h (by simp)
  · rw [if_neg hshifts] at h
    by_cases hinv : (wos.filter (fun wo => wo.workCenterId != wc.name)).isEmpty
    · rw [if_neg (by simp [hinv])] at h
      cases hreg : placeRegular wc wos (wos.filter (fun wo => !wo.isMaintenance))
          (placeMaintenance (wos.filter (fun wo => wo.isMaintenance)) [] []).1
          (placeMaintenance (wos.filter (fun wo => wo.isMaintenance)) [] []).2 with
      | error e => rw [hreg] at h; exact absurd h (by simp)
      | ok p =>
        obtain ⟨states, changes⟩ := p
        rw [hreg] at h
        cases hbuild : buildScheduled states wos with
        | error e => simp only [hbuild] at h; exact absurd h (by simp)
        | ok scheduled =>
          simp only [hbuild] at h
          cases h
          exact ⟨states, changes, rfl, hbuild, rfl⟩
    · rw [if_pos (by simp [hinv])] at h
      exact absurd h (by simp)

/-! ## Claims about the results of a successful `schedule` run -/

theorem withScheduledDates_startDate (wo : WorkOrder) (st : WorkOrderScheduleState) :
    (withScheduledDates wo st).startDate = st.scheduledStartDate := rfl

theorem withScheduledDates_endDate (wo : WorkOrder) (st : WorkOrderScheduleState) :
    (withScheduledDates wo st).endDate = st.scheduledEndDate := rfl

theorem numbers_nodup_filter {wos : List WorkOrder}
    (hnd : (wos.map (fun wo => wo.workOrderNumber)).Nodup) (p : WorkOrder → Bool) :
    ((wos.filter p).map (fun wo => wo.workOrderNumber)).Nodup :=
  List.Nodup.sublist (List.Sublist.map _ (List.filter_sublist wos)) hnd

theorem number_filter_unique {wos : List WorkOrder}
    (hnd : (wos.map (fun wo => wo.workOrderNumber)).Nodup) {wo : WorkOrder}
    (hwo : wo ∈ wos) (p : WorkOrder → Bool) (hp : p wo = false) :
    wo.workOrderNumber ∉ (wos.filter p).map (fun w => w.workOrderNumber) := by
  intro hmem
  obtain ⟨w2, hw2, hnum⟩ := List.mem_map.mp hmem
  obtain ⟨hw2mem, hw2p⟩ := List.mem_filter.mp hw2
  have heq : w2 = wo := List.inj_on_of_nodup_map hnd hw2mem hwo hnum
  rw [heq, hp] at hw2p
  cases hw2p

theorem regular_not_in_maintenance_states {wos : List WorkOrder}
    (hnd : (wos.map (fun wo => wo.workOrderNumber)).Nodup) {wo : WorkOrder}
    (hwo : wo ∈ wos) (hm : wo.isMaintenance = false) :
    mapGet (placeMaintenance (wos.filter (fun w => w.isMaintenance)) [] []).1
      wo.workOrderNumber = none := by
  rw [placeMaintenance_get_preserved _ _ _ _
    (number_filter_unique hnd hwo (fun w => w.isMaintenance) hm)]
  rfl

/-- C4 (amended): in every successful invocation whose work-order
identifiers are pairwise distinct, every maintenance order keeps its
original interval.  (With duplicate identifiers the number-keyed state map
lets a movable order overwrite a maintenance order's entry; see the
counterexample.) -/
theorem maintenance_orders_unchanged (wc : WorkCenter) (wos : List WorkOrder)
    {res : ScheduleResult}
    (hnd : (wos.map (fun wo => wo.workOrderNumber)).Nodup)
    (h : schedule wc wos = .ok res) :
    ∀ (i : Nat) (wo r : WorkOrder), wos[i]? = some wo →
      res.scheduledWorkOrders[i]? = some r → wo.isMaintenance = true →
      r.startDate = wo.startDate ∧ r.endDate = wo.endDate := by
  obtain ⟨states, changes, hreg, hbuild, hch⟩ := schedule_ok_elim h
  obtain ⟨hlen, hpt⟩ := buildScheduled_ok hbuild
  intro i wo r hi hr hm
  obtain ⟨st, hget, hout⟩ := hpt i wo hi
  rw [hr] at hout
  have hrw : r = withScheduledDates wo st := Option.some.inj hout
  have hwomem : wo ∈ wos := List.getElem?_mem hi
  have hnotreg : wo.workOrderNumber
      ∉ (wos.filter (fun w => !w.isMaintenance)).map (fun w => w.workOrderNumber) :=
    number_filter_unique hnd hwomem (fun w => !w.isMaintenance) (by simp [hm])
  have hmaint : mapGet states wo.workOrderNumber = some (maintenanceState wo) := by
    rw [placeRegular_get_preserved hreg _ hnotreg]
    exact placeMaintenance_get _ _ _
      (numbers_nodup_filter hnd (fun w => w.isMaintenance)) wo
      (List.mem_filter.mpr ⟨hwomem, by simp [hm]⟩)
  rw [hget] at hmaint
  have hst : st = maintenanceState wo := Option.some.inj hmaint
  rw [hrw, hst]
  exact ⟨rfl, rfl⟩

/-- Maintenance order whose scheduled interval collides with a duplicate
movable identifier. -/
def maintDupX : WorkOrder := ⟨"X", "A", 0, 60, 60, true, []⟩

/-- Movable order carrying the same identifier "X". -/
def movableDupX : WorkOrder := ⟨"X", "A", 0, 60, 60, false, []⟩

/-- C4 counterexample: with duplicate work-order identifiers the invocation
still succeeds, and the maintenance order's result interval is the movable
order's `[60, 120)` rather than its original `[0, 60)` — the movable order
overwrote the shared key in the number-keyed state map. -/
theorem maintenance_moved_counterexample :
    (schedule centerOpenSunday [maintDupX, movableDupX]).map
        (fun r => r.scheduledWorkOrders.map
          (fun w => (w.isMaintenance, w.startDate, w.endDate)))
      = .ok [(true, 60, 120), (false, 60, 120)] ∧
    (60 ≠ maintDupX.startDate ∧ maintDupX.isMaintenance = true) :=
  ⟨rfl, by decide, rfl⟩

/-- Witness for the amended C4: a lone maintenance order keeps its dates. -/
theorem maintenance_orders_unchanged_witness :
    (([maintDupX].map (fun wo => wo.workOrderNumber)).Nodup) ∧
      (maintDupX.startDate = maintDupX.startDate ∧ maintDupX.endDate = maintDupX.endDate) :=
  ⟨by decide,
    maintenance_orders_unchanged centerOpenSunday [maintDupX] (by decide) rfl
      0 maintDupX maintDupX rfl rfl rfl⟩

/-- C3 (amended): in every successful invocation with pairwise-distinct
identifiers, every movable order's new end equals
`end_of_work(new_start, duration)` — literally the `calculateEndDate` call
that produced it.  (Maintenance orders keep their original end instead; see
the counterexample.) -/
theorem movable_end_matches_calculated (wc : WorkCenter) (wos : List WorkOrder)
    {res : ScheduleResult}
    (hnd : (wos.map (fun wo => wo.workOrderNumber)).Nodup)
    (h : schedule wc wos = .ok res) :
    ∀ (i : Nat) (wo r : WorkOrder), wos[i]? = some wo →
      res.scheduledWorkOrders[i]? = some r → wo.isMaintenance = false →
      calculateEndDate wc r.startDate wo.durationMinutes = some r.endDate := by
  obtain ⟨states, changes, hreg, hbuild, hch⟩ := schedule_ok_elim h
  obtain ⟨hlen, hpt⟩ := buildScheduled_ok hbuild
  intro i wo r hi hr hm
  obtain ⟨st, hget, hout⟩ := hpt i wo hi
  rw [hr] at hout
  have hrw : r = withScheduledDates wo st := Option.some.inj hout
  have hwomem : wo ∈ wos := List.getElem?_mem hi
  have hwofil : wo ∈ wos.filter (fun w => !w.isMaintenance) :=
    List.mem_filter.mpr ⟨hwomem, by simp [hm]⟩
  have hdisj : ∀ w ∈ wos.filter (fun w => !w.isMaintenance),
      mapGet (placeMaintenance (wos.filter (fun w => w.isMaintenance)) [] []).1
        w.workOrderNumber = none := by
    intro w hw
    obtain ⟨hwmem, hwreg⟩ := List.mem_filter.mp hw
    exact regular_not_in_maintenance_states hnd hwmem (by simpa using hwreg)
  obtain ⟨statesAt, st2, hsched, hgetfin, hstable⟩ :=
    placeRegular_steps hreg (numbers_nodup_filter hnd _) hdisj wo hwofil
  rw [hget] at hgetfin
  have hst : st2 = st := (Option.some.inj hgetfin).symm
  obtain ⟨hwoeq, f, hf, hle, hnext, hwork, hcalc⟩ := scheduleWorkOrder_ok hsched
  rw [hrw]
  rw [withScheduledDates_startDate, withScheduledDates_endDate, ← hst]
  exact hcalc

/-- Maintenance order whose original end (0) differs from
`end_of_work(0, 60) = 60`. -/
def maintMismatch : WorkOrder := ⟨"M", "A", 0, 0, 60, true, []⟩

/-- C3 counterexample: a successful invocation keeps the maintenance
order's end at 0 even though `end_of_work(0, 60)` is 60, so the invariant
fails for maintenance orders. -/
theorem maintenance_end_counterexample :
    (schedule centerOpenSunday [maintMismatch]).map
        (fun r => r.scheduledWorkOrders.map (fun w => (w.startDate, w.endDate)))
      = .ok [(0, 0)] ∧
    calculateEndDate centerOpenSunday 0 60 = some 60 ∧ (0 : Nat) ≠ 60 :=
  ⟨rfl, rfl, by decide⟩

/-- Unconstrained movable order that keeps its schedule. -/
def movableFits : WorkOrder := ⟨"R", "A", 0, 60, 60, false, []⟩

/-- Witness for the amended C3: a lone movable order is scheduled at
`[0, 60)` and its end is exactly `calculateEndDate 0 60`. -/
theorem movable_end_matches_calculated_witness :
    (([movableFits].map (fun wo => wo.workOrderNumber)).Nodup) ∧
      calculateEndDate centerOpenSunday movableFits.startDate movableFits.durationMinutes
        = some movableFits.endDate :=
  ⟨by decide,
    movable_end_matches_calculated centerOpenSunday [movableFits] (by decide) rfl
      0 movableFits movableFits rfl rfl rfl⟩

/-- C2 (amended): in every successful invocation with pairwise-distinct
identifiers, every MOVABLE order starts no earlier than the scheduled end
of each of its predecessors.  (When the dependent order is itself a fixed
maintenance order the guarantee fails, because fixed orders are placed
first with their original dates and skip the dependency check; see the
counterexample.) -/
theorem movable_respects_predecessors (wc : WorkCenter) (wos : List WorkOrder)
    {res : ScheduleResult}
    (hnd : (wos.map (fun wo => wo.workOrderNumber)).Nodup)
    (h : schedule wc wos = .ok res) :
    ∀ (i : Nat) (wo r : WorkOrder), wos[i]? = some wo →
      res.scheduledWorkOrders[i]? = some r → wo.isMaintenance = false →
      ∀ (j : Nat) (dep depr : WorkOrder), wos[j]? = some dep →
        res.scheduledWorkOrders[j]? = some depr →
        dep.workOrderNumber ∈ wo.dependsOnWorkOrderIds →
        depr.endDate ≤ r.startDate := by
  obtain ⟨states, changes, hreg, hbuild, hch⟩ := schedule_ok_elim h
  obtain ⟨hlen, hpt⟩ := buildScheduled_ok hbuild
  intro i wo r hi hr hm j dep depr hj hdepr hdep
  obtain ⟨st, hget, hout⟩ := hpt i wo hi
  rw [hr] at hout
  have hrw : r = withScheduledDates wo st := Option.some.inj hout
  have hwomem : wo ∈ wos := List.getElem?_mem hi
  have hwofil : wo ∈ wos.filter (fun w => !w.isMaintenance) :=
    List.mem_filter.mpr ⟨hwomem, by simp [hm]⟩
  have hdisj : ∀ w ∈ wos.filter (fun w => !w.isMaintenance),
      mapGet (placeMaintenance (wos.filter (fun w => w.isMaintenance)) [] []).1
        w.workOrderNumber = none := by
    intro w hw
    obtain ⟨hwmem, hwreg⟩ := List.mem_filter.mp hw
    exact regular_not_in_maintenance_states hnd hwmem (by simpa using hwreg)
  obtain ⟨statesAt, st2, hsched, hgetfin, hstable⟩ :=
    placeRegular_steps hreg (numbers_nodup_filter hnd _) hdisj wo hwofil
  rw [hget] at hgetfin
  have hst : st2 = st := (Option.some.inj hgetfin).symm
  obtain ⟨hwoeq, f, hf, hle, hnext, hwork, hcalc⟩ := scheduleWorkOrder_ok hsched
  obtain ⟨hsf, hdeps, hrest⟩ := scheduleFloor_ok hf
  obtain ⟨depWo, depSt, hfind, hgetdep, hdend⟩ := hdeps dep.workOrderNumber hdep
  have hdepwomem : depWo ∈ wos := List.mem_of_find?_eq_some hfind
  have hdepwonum : depWo.workOrderNumber = dep.workOrderNumber := by
    have := List.find?_some hfind
    simpa using this
  have hdepmem : dep ∈ wos := List.getElem?_mem hj
  have hdepeq : depWo = dep := List.inj_on_of_nodup_map hnd hdepwomem hdepmem hdepwonum
  rw [hdepeq] at hgetdep
  have hgetdepfin : mapGet states dep.workOrderNumber = some depSt :=
    hstable _ _ hgetdep
  obtain ⟨stj, hgetj, houtj⟩ := hpt j dep hj
  rw [hgetdepfin] at hgetj
  have hstj : stj = depSt := (Option.some.inj hgetj).symm
  rw [hdepr] at houtj
  have hdrw : depr = withScheduledDates dep stj := Option.some.inj houtj
  rw [hdrw, hstj, hrw]
  rw [withScheduledDates_endDate, withScheduledDates_startDate]
  rw [hst] at hle
  omega

/-- Fixed maintenance order that depends on the movable order "R". -/
def maintWithDep : WorkOrder := ⟨"M", "A", 0, 60, 60, true, ["R"]⟩

/-- Movable order "R" that ends up scheduled after the maintenance order. -/
def movableLong : WorkOrder := ⟨"R", "A", 0, 120, 120, false, []⟩

/-- C2 counterexample: the maintenance order keeps `[0, 60)` while its
predecessor "R" is pushed to `[60, 180)` by the exclusivity check, so the
predecessor ends at 180, strictly after the dependent order's start 0. -/
theorem maintenance_predecessor_counterexample :
    (schedule centerOpenSunday [maintWithDep, movableLong]).map
        (fun r => r.scheduledWorkOrders.map
          (fun w => (w.workOrderNumber, w.startDate, w.endDate)))
      = .ok [("M", 0, 60), ("R", 60, 180)] ∧
    maintWithDep.dependsOnWorkOrderIds = ["R"] ∧ ¬ (180 ≤ (0 : Nat)) :=
  ⟨rfl, rfl, by decide⟩

/-- Movable order "A" with no predecessors. -/
def depOrderA : WorkOrder := ⟨"A", "A", 0, 60, 60, false, []⟩

/-- Movable order "B" depending on "A", with the same original slot. -/
def depOrderB : WorkOrder := ⟨"B", "A", 0, 60, 60, false, ["A"]⟩

/-- Witness for the amended C2: "B" depends on "A"; "A" is scheduled
`[0, 60)` and "B" `[60, 120)`, so the predecessor's end 60 is no later
than "B"'s start 60. -/
theorem movable_respects_predecessors_witness :
    (([depOrderA, depOrderB].map (fun wo => wo.workOrderNumber)).Nodup) ∧
      (⟨"A", "A", 0, 60, 60, false, []⟩ : WorkOrder).endDate
        ≤ (⟨"B", "A", 60, 120, 60, false, ["A"]⟩ : WorkOrder).startDate :=
  ⟨by decide,
    movable_respects_predecessors centerOpenSunday [depOrderA, depOrderB] (by decide) rfl
      1 depOrderB ⟨"B", "A", 60, 120, 60, false, ["A"]⟩ rfl rfl rfl
      0 depOrderA ⟨"A", "A", 0, 60, 60, false, []⟩ rfl rfl (by decide)⟩

/-- C5 (amended): the change records emitted for maintenance orders are
exactly `maintenanceChange` — reason tag `no_change` with the fixed
"cannot be rescheduled" explanation and zero displacement — and they form
the prefix of the change list, in maintenance-order input order. -/
theorem maintenance_change_records (wc : WorkCenter) (wos : List WorkOrder)
    {res : ScheduleResult} (h : schedule wc wos = .ok res) :
    res.changes.take (wos.filter (fun wo => wo.isMaintenance)).length
      = (wos.filter (fun wo => wo.isMaintenance)).map maintenanceChange := by
  obtain ⟨states, changes, hreg, hbuild, hch⟩ := schedule_ok_elim h
  obtain ⟨suffix, hsuffix⟩ := placeRegular_changes_prefix hreg
  rw [hch, hsuffix, placeMaintenance_changes]
  rw [List.nil_append]
  exact List.take_left' (by rw [List.length_map])

/-- Witness for the amended C5: the single change record of a lone
maintenance order is its `maintenanceChange`, carrying reason `no_change`. -/
theorem maintenance_change_records_witness :
    ([maintenanceChange maintMismatch].take
        ([maintMismatch].filter (fun wo => wo.isMaintenance)).length)
      = ([maintMismatch].filter (fun wo => wo.isMaintenance)).map maintenanceChange :=
  maintenance_change_records centerOpenSunday [maintMismatch] rfl

/-- C5 counterexample: the change record for a maintenance order carries
the generic `no_change` reason tag (with a fixed-maintenance explanation
string), and `no_change` is also the tag emitted for an untouched movable
order — no `fixed_maintenance` reason tag exists in the code's
`ChangeReason` union. -/
theorem maintenance_reason_counterexample :
    (schedule centerOpenSunday [maintMismatch]).map
        (fun r => r.changes.map (fun c => (c.reason, c.explanation)))
      = .ok [(.noChange, maintenanceExplanation)] ∧
    (schedule centerOpenSunday [movableFits]).map
        (fun r => r.changes.map (fun c => c.reason))
      = .ok [.noChange] :=
  ⟨rfl, rfl⟩

/-- C6: the failing input for the dependency-reason claim.  Order "B" is
displaced solely because its predecessor "A" ends (at 60) strictly after
"B"'s original start 0 — the premise of the claim, restated by the second
and third conjuncts — yet the emitted change record carries
`work_center_conflict` naming "A", not the `dependency` reason: the scan in
`determineChangeReason` looks up the positional alias `wo-0` in a map keyed
by work-order numbers, so the dependency branch can never return for
ordinary identifiers. -/
theorem dependency_reason_not_emitted :
    (schedule centerOpenSunday [depOrderA, depOrderB]).map
        (fun r => r.changes.map (fun c => (c.workOrderNumber, c.delayMinutes, c.reason)))
      = .ok [("A", 0, .noChange), ("B", 60, .workCenterConflict "A" "A")] ∧
    getLatestDependencyEndTime depOrderB
        [("A", ⟨depOrderA, 0, 60, true⟩), ("B", ⟨depOrderB, 60, 120, true⟩)]
        [depOrderA, depOrderB] = .ok (some 60) ∧
    depOrderB.startDate < 60 :=
  ⟨rfl, rfl, by decide⟩

/-! ## Topological sort (`src/reflow/topological-sort.ts`)

Kahn's algorithm over three insertion-ordered maps.  The unbounded
`while (queue.length > 0)` loop is embedded with fuel; `loopFuel` is the
artifact error of fuel exhaustion, proved unreachable below. -/

/-- Errors of `topologicalSort`. -/
inductive TopoError
  | notFoundInMap (workOrderNumber : String)
  | circularDependency (workOrderNumbers : List String)
  | loopFuel
deriving DecidableEq, Repr

/-- The numbers of a list of work orders. -/
def numbersOf (l : List WorkOrder) : List String :=
  l.map (fun wo => wo.workOrderNumber)

/-- The `workOrderMap` of `topologicalSort`. -/
def buildWorkOrderMap (workOrders : List WorkOrder) : List (String × WorkOrder) :=
  workOrders.foldl (fun m wo => mapSet m wo.workOrderNumber wo) []

/-- The `inDegree` map initialization of `topologicalSort`. -/
def buildInDegree (workOrders : List WorkOrder) : List (String × Int) :=
  workOrders.foldl
    (fun m wo => mapSet m wo.workOrderNumber (wo.dependsOnWorkOrderIds.length : Int)) []

/-- One edge insertion of the adjacency build: append the dependent's
number to the predecessor's list when the predecessor key exists (missing
predecessors are skipped, exactly as the source's `if (depList)` does). -/
def adjInsert (wo : WorkOrder) (m2 : List (String × List String)) (depId : String) :
    List (String × List String) :=
  match mapGet m2 depId with
  | some depList => mapSet m2 depId (depList ++ [wo.workOrderNumber])
  | none => m2

/-- The `adjacencyList` of `topologicalSort`: initialized with an empty
list per order, then each order is appended to the list of each of its
predecessors. -/
def buildAdjacency (workOrders : List WorkOrder) : List (String × List String) :=
  workOrders.foldl
    (fun m wo => wo.dependsOnWorkOrderIds.foldl (adjInsert wo) m)
    (workOrders.foldl (fun m wo => mapSet m wo.workOrderNumber ([] : List String)) [])

/-- The initial queue: keys whose in-degree is zero, in map order. -/
def initialQueue (inDeg : List (String × Int)) : List String :=
  (inDeg.filter (fun p => p.2 == 0)).map (fun p => p.1)

/-- The `dependents.forEach` body of the loop: decrement each dependent's
in-degree (`inDegree.get(...)!` is modelled with default 0; the key always
exists in the runs considered) and enqueue it when the decrement reaches
zero. -/
def processDependents : List (String × Int) → List String → List String →
    List (String × Int) × List String
  | inDeg, queue, [] => (inDeg, queue)
  | inDeg, queue, dependent :: rest =>
    processDependents
      (mapSet inDeg dependent ((mapGet inDeg dependent).getD 0 - 1))
      (if (mapGet inDeg dependent).getD 0 - 1 == 0 then queue ++ [dependent] else queue)
      rest

/-- The `while (queue.length > 0)` loop of `topologicalSort`.  Returns the
sorted list together with the final in-degree table. -/
def kahnLoop (woMap : List (String × WorkOrder)) (adj : List (String × List String)) :
    Nat → List (String × Int) → List String → List WorkOrder →
    Except TopoError (List WorkOrder × List (String × Int))
  | 0, _, _, _ => .error .loopFuel
  | fuel + 1, inDeg, queue, sorted =>
    match queue with
    | [] => .ok (sorted, inDeg)
    | cur :: rest =>
      match mapGet woMap cur with
      | none => .error (.notFoundInMap cur)
      | some currentWo =>
        kahnLoop woMap adj fuel
          (processDependents inDeg rest ((mapGet adj cur).getD [])).1
          (processDependents inDeg rest ((mapGet adj cur).getD [])).2
          (sorted ++ [currentWo])

/-- Fuel for the loop: one more than vertices plus edges; the loop runs at
most once per enqueued order and every order is enqueued at most once. -/
def topoFuel (workOrders : List WorkOrder) : Nat :=
  workOrders.length
    + (workOrders.map (fun wo => wo.dependsOnWorkOrderIds.length)).sum + 1

/-- The full run of Kahn's loop as `topologicalSort` performs it. -/
def topologicalSortRun (workOrders : List WorkOrder) :
    Except TopoError (List WorkOrder × List (String × Int)) :=
  kahnLoop (buildWorkOrderMap workOrders) (buildAdjacency workOrders)
    (topoFuel workOrders) (buildInDegree workOrders)
    (initialQueue (buildInDegree workOrders)) []

/-- `topologicalSort`: empty-input shortcut, the loop, then the
circular-dependency check naming every order that was not processed. -/
def topologicalSort (workOrders : List WorkOrder) : Except TopoError (List WorkOrder) :=
  if workOrders.isEmpty then .ok [] else
  match topologicalSortRun workOrders with
  | .error e => .error e
  | .ok (sorted, _) =>
    if sorted.length != workOrders.length then
      .error (.circularDependency
        ((workOrders.filter (fun wo =>
          !((numbersOf sorted).contains wo.workOrderNumber))).map
          (fun wo => wo.workOrderNumber)))
    else .ok sorted

/-- `validateWorkOrderDependencies` (the human-readable `errors` strings
are abstracted away; `valid` is their emptiness, which the source computes
as `errors.length === 0`). -/
structure DependencyValidation where
  valid : Bool
  missingDependencies : List String
  circularDependencies : Bool
deriving DecidableEq, Repr

/-- `validateWorkOrderDependencies`: collect dependency identifiers absent
from the input (deduplicated, first occurrence kept, as `new Set` does),
and probe `topologicalSort` for a circular-dependency failure only when
nothing is missing. -/
def validateWorkOrderDependencies (workOrders : List WorkOrder) : DependencyValidation :=
  ⟨(workOrders.flatMap (fun wo => wo.dependsOnWorkOrderIds.filter
      (fun depId => !(numbersOf workOrders).contains depId))).isEmpty
    && !((workOrders.flatMap (fun wo => wo.dependsOnWorkOrderIds.filter
      (fun depId => !(numbersOf workOrders).contains depId))).isEmpty
      && (match topologicalSort workOrders with
        | .error (.circularDependency _) => true
        | _ => false)),
  (workOrders.flatMap (fun wo => wo.dependsOnWorkOrderIds.filter
      (fun depId => !(numbersOf workOrders).contains depId))).eraseDups,
  (workOrders.flatMap (fun wo => wo.dependsOnWorkOrderIds.filter
      (fun depId => !(numbersOf workOrders).contains depId))).isEmpty
    && (match topologicalSort workOrders with
      | .error (.circularDependency _) => true
      | _ => false)⟩

/-! ## Characterizing the maps `topologicalSort` builds -/

theorem foldl_mapSet_get_preserved {α : Type} (g : WorkOrder → α) :
    ∀ (l : List WorkOrder) (acc : List (String × α)) (k : String),
      k ∉ numbersOf l →
      mapGet (l.foldl (fun m wo => mapSet m wo.workOrderNumber (g wo)) acc) k
        = mapGet acc k := by
  intro l
  induction l with
  | nil => intro acc k _; rfl
  | cons wo rest ih =>
    intro acc k hk
    simp only [numbersOf, List.map_cons, List.mem_cons] at hk
    push_neg at hk
    rw [List.foldl_cons, ih _ _ (by simpa [numbersOf] using hk.2),
      mapGet_mapSet_ne _ _ _ hk.1]

theorem foldl_mapSet_get {α : Type} (g : WorkOrder → α) :
    ∀ (l : List WorkOrder) (acc : List (String × α)),
      (numbersOf l).Nodup →
      ∀ wo ∈ l, mapGet (l.foldl (fun m wo => mapSet m wo.workOrderNumber (g wo)) acc)
        wo.workOrderNumber = some (g wo) := by
  intro l
  induction l with
  | nil => intro acc _ wo hwo; simp at hwo
  | cons wo0 rest ih =>
    intro acc hnd wo hwo
    simp only [numbersOf, List.map_cons, List.nodup_cons] at hnd
    rcases List.mem_cons.mp hwo with rfl | hwo
    · rw [List.foldl_cons,
        foldl_mapSet_get_preserved g rest _ _ (by simpa [numbersOf] using hnd.1),
        mapGet_mapSet_self]
    · exact ih _ (by simpa [numbersOf] using hnd.2) wo hwo

theorem foldl_mapSet_mem {α : Type} (g : WorkOrder → α) :
    ∀ (l : List WorkOrder) (acc : List (String × α)) (p : String × α),
      p ∈ l.foldl (fun m wo => mapSet m wo.workOrderNumber (g wo)) acc →
      p ∈ acc ∨ ∃ wo ∈ l, p = (wo.workOrderNumber, g wo) := by
  intro l
  induction l with
  | nil => intro acc p hp; exact Or.inl hp
  | cons wo0 rest ih =>
    intro acc p hp
    rw [List.foldl_cons] at hp
    rcases ih _ _ hp with hacc | ⟨wo, hwo, rfl⟩
    · rcases mem_mapSet hacc with rfl | hm
      · exact Or.inr ⟨wo0, List.mem_cons_self _ _, rfl⟩
      · exact Or.inl hm
    · exact Or.inr ⟨wo, List.mem_cons_of_mem _ hwo, rfl⟩

theorem mem_keys_mapSet {α : Type} {m : List (String × α)} {k : String} {v : α} {q : String}
    (h : q ∈ (mapSet m k v).map Prod.fst) : q ∈ m.map Prod.fst ∨ q = k := by
  obtain ⟨p, hp, hq⟩ := List.mem_map.mp h
  rcases mem_mapSet hp with rfl | hm
  · exact Or.inr hq.symm
  · exact Or.inl (hq ▸ List.mem_map_of_mem _ hm)

theorem mapSet_keys_nodup {α : Type} :
    ∀ {m : List (String × α)} (k : String) (v : α),
      (m.map Prod.fst).Nodup → ((mapSet m k v).map Prod.fst).Nodup := by
  intro m
  induction m with
  | nil => intro k v _; simp [mapSet]
  | cons p rest ih =>
    intro k v h
    simp only [List.map_cons, List.nodup_cons] at h
    unfold mapSet
    by_cases hp : p.1 == k
    · have hk : p.1 = k := by simpa using hp
      rw [if_pos hp]
      simp only [List.map_cons, List.nodup_cons]
      exact ⟨by rw [← hk]; exact h.1, h.2⟩
    · rw [if_neg hp]
      simp only [List.map_cons, List.nodup_cons]
      refine ⟨?_, ih k v h.2⟩
      intro hmem
      rcases mem_keys_mapSet hmem with hm | hm
      · exact h.1 hm
      · rw [hm] at hp
        simp at hp

theorem foldl_mapSet_keys_nodup {α : Type} (g : WorkOrder → α) :
    ∀ (l : List WorkOrder) (acc : List (String × α)),
      (acc.map Prod.fst).Nodup →
      ((l.foldl (fun m wo => mapSet m wo.workOrderNumber (g wo)) acc).map Prod.fst).Nodup := by
  intro l
  induction l with
  | nil => intro acc h; exact h
  | cons wo rest ih =>
    intro acc h
    rw [List.foldl_cons]
    exact ih _ (mapSet_keys_nodup _ _ h)

theorem buildWorkOrderMap_get {wos : List WorkOrder} (hnd : (numbersOf wos).Nodup)
    {wo : WorkOrder} (hwo : wo ∈ wos) :
    mapGet (buildWorkOrderMap wos) wo.workOrderNumber = some wo :=
  foldl_mapSet_get (fun wo => wo) wos [] hnd wo hwo

theorem buildWorkOrderMap_get_mem {wos : List WorkOrder} {n : String} {w : WorkOrder}
    (h : mapGet (buildWorkOrderMap wos) n = some w) :
    w ∈ wos ∧ w.workOrderNumber = n := by
  have hmem := mem_of_mapGet_eq_some h
  rcases foldl_mapSet_mem (fun wo => wo) wos [] _ hmem with hacc | ⟨wo, hwo, heq⟩
  · simp at hacc
  · obtain ⟨h1, h2⟩ := Prod.mk.injEq .. ▸ heq
    · constructor
      · rw [h2]; exact hwo
      · rw [h2, h1]

theorem buildInDegree_get {wos : List WorkOrder} (hnd : (numbersOf wos).Nodup)
    {wo : WorkOrder} (hwo : wo ∈ wos) :
    mapGet (buildInDegree wos) wo.workOrderNumber
      = some (wo.dependsOnWorkOrderIds.length : Int) :=
  foldl_mapSet_get (fun wo => (wo.dependsOnWorkOrderIds.length : Int)) wos [] hnd wo hwo

theorem buildInDegree_mem {wos : List WorkOrder} {p : String × Int}
    (h : p ∈ buildInDegree wos) :
    ∃ wo ∈ wos, p = (wo.workOrderNumber, (wo.dependsOnWorkOrderIds.length : Int)) := by
  rcases foldl_mapSet_mem (fun wo => (wo.dependsOnWorkOrderIds.length : Int)) wos [] _ h with
    hacc | hm
  · simp at hacc
  · exact hm

theorem buildInDegree_keys_nodup (wos : List WorkOrder) :
    ((buildInDegree wos).map Prod.fst).Nodup :=
  foldl_mapSet_keys_nodup _ wos [] (by simp)

theorem adjInsert_get_none (w : WorkOrder) (m : List (String × List String)) (d k : String)
    (hd : mapGet m d = none) : mapGet (adjInsert w m d) k = mapGet m k := by
  unfold adjInsert
  rw [hd]

theorem adjInsert_get_self (w : WorkOrder) (m : List (String × List String)) (d : String)
    (A : List String) (hd : mapGet m d = some A) :
    mapGet (adjInsert w m d) d = some (A ++ [w.workOrderNumber]) := by
  unfold adjInsert
  rw [hd]
  exact mapGet_mapSet_self m d (A ++ [w.workOrderNumber])

theorem adjInsert_get_ne (w : WorkOrder) (m : List (String × List String)) (d k : String)
    (A : List String) (hd : mapGet m d = some A) (hkd : k ≠ d) :
    mapGet (adjInsert w m d) k = mapGet m k := by
  unfold adjInsert
  rw [hd]
  exact mapGet_mapSet_ne m d (A ++ [w.workOrderNumber]) hkd

theorem adjStep_fold (w : WorkOrder) :
    ∀ (ds : List String) (m : List (String × List String)) (k : String),
      mapGet (ds.foldl (adjInsert w) m) k
        = match mapGet m k with
          | some A => some (A ++ List.replicate (ds.count k) w.workOrderNumber)
          | none => none := by
  intro ds
  induction ds with
  | nil =>
    intro m k
    cases h : mapGet m k <;> simp [h]
  | cons d rest ih =>
    intro m k
    rw [List.foldl_cons, ih]
    cases hd : mapGet m d with
    | none =>
      rw [adjInsert_get_none w m d k hd]
      cases hk : mapGet m k with
      | none => rfl
      | some A =>
        have hkd : k ≠ d := by
          intro h
          rw [h, hd] at hk
          cases hk
        have hc : (d :: rest).count k = rest.count k := by
          simp [List.count_cons, hkd, Ne.symm hkd]
        rw [hc]
    | some A =>
      by_cases hkd : k = d
      · subst hkd
        rw [adjInsert_get_self w m k A hd, hd]
        have hc : (k :: rest).count k = rest.count k + 1 := by
          simp [List.count_cons]
        rw [hc]
        show some (A ++ [w.workOrderNumber]
            ++ List.replicate (rest.count k) w.workOrderNumber)
          = some (A ++ List.replicate (rest.count k + 1) w.workOrderNumber)
        rw [List.append_assoc, List.singleton_append, ← List.replicate_succ]
      · rw [adjInsert_get_ne w m d k A hd hkd]
        have hc : (d :: rest).count k = rest.count k := by
          simp [List.count_cons, hkd, Ne.symm hkd]
        rw [hc]

/-- Invariant of the adjacency-building fold after processing `done`. -/
def AdjInvariant (wos done : List WorkOrder) (m : List (String × List String)) : Prop :=
  ∀ k : String,
    (k ∉ numbersOf wos → mapGet m k = none) ∧
    (k ∈ numbersOf wos → ∃ A, mapGet m k = some A ∧
      (∀ x ∈ A, x ∈ numbersOf done) ∧
      ∀ w2 ∈ wos, A.count w2.workOrderNumber
        = if w2 ∈ done then w2.dependsOnWorkOrderIds.count k else 0)

theorem adjacency_fold_invariant {wos : List WorkOrder} (hnd : (numbersOf wos).Nodup) :
    ∀ (todo done : List WorkOrder) (m : List (String × List String)),
      wos = done ++ todo → AdjInvariant wos done m →
      AdjInvariant wos (done ++ todo)
        (todo.foldl (fun m wo => wo.dependsOnWorkOrderIds.foldl (adjInsert wo) m) m) := by
  intro todo
  induction todo with
  | nil =>
    intro done m heq hinv
    simpa using hinv
  | cons w rest ih =>
    intro done m heq hinv
    rw [List.foldl_cons]
    have heq2 : wos = (done ++ [w]) ++ rest := by simp [heq]
    have hwnotdone : w.workOrderNumber ∉ numbersOf done := by
      have : (numbersOf wos).Nodup := hnd
      rw [heq] at this
      simp only [numbersOf, List.map_append, List.map_cons] at this
      have := List.nodup_append.mp this
      intro hmem
      exact this.2.2 hmem (by simp)
    have hwin : w ∈ wos := by rw [heq]; simp
    have hinv2 : AdjInvariant wos (done ++ [w])
        (w.dependsOnWorkOrderIds.foldl (adjInsert w) m) := by
      intro k
      obtain ⟨habsent, hpresent⟩ := hinv k
      constructor
      · intro hk
        rw [adjStep_fold, habsent hk]
      · intro hk
        obtain ⟨A, hA, hmem, hcount⟩ := hpresent hk
        refine ⟨A ++ List.replicate (w.dependsOnWorkOrderIds.count k) w.workOrderNumber,
          ?_, ?_, ?_⟩
        · rw [adjStep_fold, hA]
        · intro x hx
          rcases List.mem_append.mp hx with hx | hx
          · have := hmem x hx
            simp only [numbersOf, List.map_append, List.mem_append]
            exact Or.inl this
          · have := List.eq_of_mem_replicate hx
            simp [numbersOf, this]
        · intro w2 hw2
          rw [List.count_append, hcount w2 hw2]
          by_cases hww : w2 = w
          · subst hww
            have hnotdone : w2 ∉ done := by
              intro hmem2
              exact hwnotdone (List.mem_map_of_mem _ hmem2)
            rw [if_neg hnotdone, if_pos (by simp)]
            simp [List.count_replicate]
          · have hnum : w2.workOrderNumber ≠ w.workOrderNumber := by
              intro hkeq
              exact hww (List.inj_on_of_nodup_map hnd hw2 hwin hkeq)
            have hrep : (List.replicate (w.dependsOnWorkOrderIds.count k)
                w.workOrderNumber).count w2.workOrderNumber = 0 := by
              simp [List.count_replicate, hnum, Ne.symm hnum]
            rw [hrep]
            by_cases hd : w2 ∈ done
            · rw [if_pos hd, if_pos (by simp [hd])]
              omega
            · rw [if_neg hd, if_neg (by
                intro hmem2
                rcases List.mem_append.mp hmem2 with h1 | h1
                · exact hd h1
                · exact hww (by simpa using h1))]
    have := ih (done ++ [w]) _ heq2 hinv2
    simpa using this

theorem buildAdjacency_spec {wos : List WorkOrder} (hnd : (numbersOf wos).Nodup) :
    AdjInvariant wos wos (buildAdjacency wos) := by
  have hbase : AdjInvariant wos []
      (wos.foldl (fun m wo => mapSet m wo.workOrderNumber ([] : List String)) []) := by
    intro k
    constructor
    · intro hk
      rw [foldl_mapSet_get_preserved (fun _ => ([] : List String)) wos [] k hk]
      rfl
    · intro hk
      obtain ⟨wo, hwo, hwon⟩ := List.mem_map.mp hk
      refine ⟨[], ?_, by simp, by simp⟩
      rw [← hwon]
      exact foldl_mapSet_get (fun _ => ([] : List String)) wos [] hnd wo hwo
  have := adjacency_fold_invariant hnd wos [] _ (by simp) hbase
  simpa [buildAdjacency] using this

/-! ## The dependents-processing fold -/

theorem processDependents_spec :
    ∀ (deps : List String) (inDeg : List (String × Int)) (queue : List String),
      ∃ extra,
        (processDependents inDeg queue deps).2 = queue ++ extra ∧
        extra.Nodup ∧
        (∀ d, d ∈ extra ↔ 1 ≤ (mapGet inDeg d).getD 0 ∧
          (mapGet inDeg d).getD 0 ≤ (deps.count d : Int)) ∧
        (∀ k, mapGet (processDependents inDeg queue deps).1 k
          = if deps.count k = 0 then mapGet inDeg k
            else some ((mapGet inDeg k).getD 0 - (deps.count k : Int))) := by
  intro deps
  induction deps with
  | nil =>
    intro inDeg queue
    refine ⟨[], by simp [processDependents], by simp, ?_, ?_⟩
    · intro d
      simp only [List.not_mem_nil, false_iff, List.count_nil]
      intro hcon
      push_cast at hcon
      omega
    · intro k
      simp [processDependents]
  | cons d rest ih =>
    intro inDeg queue
    obtain ⟨extra, hq, hnd, hmem, hmap⟩ :=
      ih (mapSet inDeg d ((mapGet inDeg d).getD 0 - 1))
        (if (mapGet inDeg d).getD 0 - 1 == 0 then queue ++ [d] else queue)
    refine ⟨(if (mapGet inDeg d).getD 0 - 1 == 0 then [d] else []) ++ extra, ?_, ?_, ?_, ?_⟩
    · rw [processDependents, hq]
      by_cases hz : (mapGet inDeg d).getD 0 - 1 == 0
      · rw [if_pos hz, if_pos hz]
        simp
      · rw [if_neg hz, if_neg hz]
        simp
    · refine List.Nodup.append ?_ hnd ?_
      · by_cases hz : (mapGet inDeg d).getD 0 - 1 == 0 <;> simp [hz]
      · intro x hx hx2
        by_cases hz : (mapGet inDeg d).getD 0 - 1 == 0
        · rw [if_pos hz] at hx
          simp only [List.mem_singleton] at hx
          subst hx
          have := (hmem x).mp hx2
          rw [mapGet_mapSet_self] at this
          simp only [Option.getD_some] at this
          have hz2 : (mapGet inDeg x).getD 0 - 1 = 0 := by simpa using hz
          omega
        · rw [if_neg hz] at hx
          simp at hx
    · intro e
      constructor
      · intro he
        rcases List.mem_append.mp he with he | he
        · by_cases hz : (mapGet inDeg d).getD 0 - 1 == 0
          · rw [if_pos hz] at he
            simp only [List.mem_singleton] at he
            have hz2 : (mapGet inDeg d).getD 0 - 1 = 0 := by simpa using hz
            have hc : (d :: rest).count e = rest.count e + 1 := by
              rw [List.count_cons]
              simp [he]
            rw [hc, he]
            push_cast
            omega
          · rw [if_neg hz] at he
            simp at he
        · have := (hmem e).mp he
          by_cases hed : e = d
          · rw [hed] at this ⊢
            rw [mapGet_mapSet_self] at this
            simp only [Option.getD_some] at this
            have hc : (d :: rest).count d = rest.count d + 1 := by
              rw [List.count_cons]; simp
            rw [hc]
            push_cast at this ⊢
            omega
          · rw [mapGet_mapSet_ne _ _ _ hed] at this
            have hc : (d :: rest).count e = rest.count e := by
              rw [List.count_cons]; simp [hed, Ne.symm hed]
            rw [hc]
            exact this
      · intro hpair
        obtain ⟨h1, h2⟩ := hpair
        by_cases hed : e = d
        · rw [hed] at h1 h2
          have hc : (d :: rest).count d = rest.count d + 1 := by
            rw [List.count_cons]; simp
          rw [hc] at h2
          by_cases hz : (mapGet inDeg d).getD 0 - 1 == 0
          · rw [if_pos hz]
            exact List.mem_append.mpr (Or.inl (by simp [hed]))
          · rw [if_neg hz]
            rw [List.nil_append, hmem e, hed, mapGet_mapSet_self]
            simp only [Option.getD_some]
            have hz2 : ¬ ((mapGet inDeg d).getD 0 - 1 = 0) := by simpa using hz
            push_cast at h2 ⊢
            omega
        · have hc : (d :: rest).count e = rest.count e := by
            rw [List.count_cons]; simp [hed, Ne.symm hed]
          rw [hc] at h2
          refine List.mem_append.mpr (Or.inr ?_)
          rw [hmem e, mapGet_mapSet_ne _ _ _ hed]
          exact ⟨h1, h2⟩
    · intro k
      rw [processDependents, hmap k]
      by_cases hkd : k = d
      · rw [hkd]
        have hc : (d :: rest).count d = rest.count d + 1 := by
          rw [List.count_cons]; simp
        rw [hc, mapGet_mapSet_self]
        by_cases hr : rest.count d = 0
        · rw [if_pos hr, if_neg (by omega)]
          congr 1
          rw [hr]
          push_cast
          omega
        · rw [if_neg hr, if_neg (by omega)]
          simp only [Option.getD_some]
          congr 1
          push_cast
          omega
      · have hc : (d :: rest).count k = rest.count k := by
          rw [List.count_cons]; simp [hkd, Ne.symm hkd]
        rw [hc, mapGet_mapSet_ne _ _ _ hkd]

/-! ## Specification-side notions for the topological sort -/

/-- `sorted` respects dependencies: each order's predecessors all appear
strictly earlier in the list. -/
def RespectsDeps (sorted : List WorkOrder) : Prop :=
  ∀ (i : Nat) (wo : WorkOrder), sorted[i]? = some wo →
    ∀ d ∈ wo.dependsOnWorkOrderIds, ∃ j, j < i ∧
      ∃ dep : WorkOrder, sorted[j]? = some dep ∧ dep.workOrderNumber = d

/-- A dependency cycle inside `wos`: a nonempty list of orders of `wos` in
which each order depends on the next one, cyclically. -/
def IsCycle (wos : List WorkOrder) (cyc : List WorkOrder) : Prop :=
  cyc ≠ [] ∧ (∀ w ∈ cyc, w ∈ wos) ∧
  ∀ (i : Nat) (w : WorkOrder), cyc[i]? = some w →
    ∃ w2, cyc[(i + 1) % cyc.length]? = some w2 ∧
      w2.workOrderNumber ∈ w.dependsOnWorkOrderIds

/-- The number of predecessors of `wo` whose identifier is not among
`done` (the in-degree value Kahn's loop maintains for `wo`). -/
def pendingCount (wo : WorkOrder) (done : List String) : Int :=
  ((wo.dependsOnWorkOrderIds.filter (fun d => !done.contains d)).length : Int)

/-- The loop invariant of `kahnLoop` over the original order list `wos`. -/
structure KahnInv (wos : List WorkOrder) (inDeg : List (String × Int))
    (queue : List String) (sorted : List WorkOrder) : Prop where
  sorted_mem : ∀ w ∈ sorted, w ∈ wos
  sorted_nodup : (numbersOf sorted).Nodup
  queue_mem : ∀ n ∈ queue, n ∈ numbersOf wos
  queue_nodup : queue.Nodup
  queue_fresh : ∀ n ∈ queue, n ∉ numbersOf sorted
  indeg_spec : ∀ w ∈ wos,
    mapGet inDeg w.workOrderNumber = some (pendingCount w (numbersOf sorted))
  mem_iff : ∀ w ∈ wos,
    (w.workOrderNumber ∈ queue ∨ w.workOrderNumber ∈ numbersOf sorted)
      ↔ pendingCount w (numbersOf sorted) = 0
  resp : RespectsDeps sorted

/-! ## Helper lemmas for the Kahn-loop invariant -/

theorem mapGet_eq_some_of_mem_nodup {α : Type} {m : List (String × α)} {k : String} {v : α}
    (hnd : (m.map Prod.fst).Nodup) (hm : (k, v) ∈ m) : mapGet m k = some v := by
  induction m with
  | nil => simp at hm
  | cons p rest ih =>
    rw [List.map_cons, List.nodup_cons] at hnd
    obtain ⟨h1, h2⟩ := hnd
    rw [mapGet_cons]
    rcases List.mem_cons.mp hm with heq | hmem
    · rw [← heq]
      simp
    · have hk : p.1 ≠ k := by
        intro hpk
        exact h1 (hpk ▸ List.mem_map.mpr ⟨(k, v), hmem, rfl⟩)
      rw [if_neg (by simpa using hk)]
      exact ih h2 hmem

theorem exists_order_of_mem_numbers {wos : List WorkOrder} {n : String}
    (h : n ∈ numbersOf wos) : ∃ wo ∈ wos, wo.workOrderNumber = n := by
  obtain ⟨wo, hwo, hn⟩ := List.mem_map.mp h
  exact ⟨wo, hwo, hn⟩

theorem pendingCount_nonneg (wo : WorkOrder) (done : List String) :
    0 ≤ pendingCount wo done := by
  unfold pendingCount
  exact Int.ofNat_nonneg _

theorem pendingCount_nil (wo : WorkOrder) :
    pendingCount wo [] = (wo.dependsOnWorkOrderIds.length : Int) := by
  unfold pendingCount
  congr 1
  have : ∀ d ∈ wo.dependsOnWorkOrderIds, (!([] : List String).contains d) = true := by
    intro d _
    rfl
  rw [List.filter_congr this, List.filter_true]

theorem length_filter_ne_count (l : List String) (cur : String) :
    (l.filter (fun d => !(d == cur))).length = l.length - l.count cur := by
  induction l with
  | nil => rfl
  | cons a rest ih =>
    by_cases ha : a = cur
    · subst ha
      have h1 : List.filter (fun d => !(d == a)) (a :: rest)
          = List.filter (fun d => !(d == a)) rest := by
        simp [List.filter_cons]
      rw [h1, ih, List.count_cons]
      simp
    · have h1 : List.filter (fun d => !(d == cur)) (a :: rest)
          = a :: List.filter (fun d => !(d == cur)) rest := by
        simp [List.filter_cons, ha]
      have hc : (a :: rest).count cur = rest.count cur := by
        rw [List.count_cons]
        simp [ha]
      have hle := List.count_le_length cur rest
      rw [h1, hc]
      simp only [List.length_cons, ih]
      omega

/-- Completing one more order subtracts its multiplicity among the
dependencies from the pending count. -/
theorem pendingCount_append (wo : WorkOrder) (done : List String) (cur : String)
    (hcur : cur ∉ done) :
    pendingCount wo (done ++ [cur])
      = pendingCount wo done - (wo.dependsOnWorkOrderIds.count cur : Int) := by
  unfold pendingCount
  have hpt : ∀ d ∈ wo.dependsOnWorkOrderIds,
      (!(done ++ [cur]).contains d) = (!(d == cur) && !done.contains d) := by
    intro d _
    by_cases h1 : d ∈ done <;> by_cases h2 : d = cur
    · exact absurd (h2 ▸ h1) hcur
    · simp [h1, h2]
    · simp [h1, h2]
    · simp [h1, h2]
  rw [List.filter_congr hpt, ← List.filter_filter, length_filter_ne_count]
  have hcc : (List.filter (fun d => !done.contains d) wo.dependsOnWorkOrderIds).count cur
      = wo.dependsOnWorkOrderIds.count cur := by
    apply List.count_filter
    simp [hcur]
  have hle := List.count_le_length cur
    (List.filter (fun d => !done.contains d) wo.dependsOnWorkOrderIds)
  rw [hcc] at hle ⊢
  omega

theorem length_filter_or_disjoint {α : Type} (p q : α → Bool) :
    ∀ l : List α, (∀ x ∈ l, ¬(p x = true ∧ q x = true)) →
      (l.filter (fun x => p x || q x)).length
        = (l.filter p).length + (l.filter q).length := by
  intro l
  induction l with
  | nil => intro _; rfl
  | cons a rest ih =>
    intro hd
    have hrest := ih (fun x hx => hd x (List.mem_cons_of_mem a hx))
    cases hp : p a
    · cases hq : q a
      · have e1 : (List.filter (fun x => p x || q x) (a :: rest)).length
            = (List.filter (fun x => p x || q x) rest).length := by
          simp [List.filter_cons, hp, hq]
        have e2 : (List.filter p (a :: rest)).length = (List.filter p rest).length := by
          simp [List.filter_cons, hp]
        have e3 : (List.filter q (a :: rest)).length = (List.filter q rest).length := by
          simp [List.filter_cons, hq]
        omega
      · have e1 : (List.filter (fun x => p x || q x) (a :: rest)).length
            = (List.filter (fun x => p x || q x) rest).length + 1 := by
          simp [List.filter_cons, hp, hq]
        have e2 : (List.filter p (a :: rest)).length = (List.filter p rest).length := by
          simp [List.filter_cons, hp]
        have e3 : (List.filter q (a :: rest)).length
            = (List.filter q rest).length + 1 := by
          simp [List.filter_cons, hq]
        omega
    · cases hq : q a
      · have e1 : (List.filter (fun x => p x || q x) (a :: rest)).length
            = (List.filter (fun x => p x || q x) rest).length + 1 := by
          simp [List.filter_cons, hp, hq]
        have e2 : (List.filter p (a :: rest)).length
            = (List.filter p rest).length + 1 := by
          simp [List.filter_cons, hp]
        have e3 : (List.filter q (a :: rest)).length = (List.filter q rest).length := by
          simp [List.filter_cons, hq]
        omega
      · exact absurd ⟨hp, hq⟩ (hd a (by simp))

theorem length_filter_number_eq {wos : List WorkOrder} (hnd : (numbersOf wos).Nodup)
    {e : String} (he : e ∈ numbersOf wos) :
    (wos.filter (fun wo => wo.workOrderNumber == e)).length = 1 := by
  have h1 : (wos.filter (fun wo => wo.workOrderNumber == e)).length
      = List.countP (fun wo => wo.workOrderNumber == e) wos :=
    (List.countP_eq_length_filter _ _).symm
  have h2 : List.countP (fun n => n == e) (numbersOf wos)
      = List.countP (fun wo => wo.workOrderNumber == e) wos := by
    rw [numbersOf, List.countP_map]
    rfl
  have h3 : (numbersOf wos).count e = 1 := List.count_eq_one_of_mem hnd he
  rw [List.count_eq_countP] at h3
  rw [h1, ← h2, h3]

/-- A deduplicated set of identifiers of orders of `wos` matches exactly
that many orders of `wos`. -/
theorem length_filter_contains_eq {wos : List WorkOrder} (hnd : (numbersOf wos).Nodup) :
    ∀ extra : List String, extra.Nodup → (∀ d ∈ extra, d ∈ numbersOf wos) →
      (wos.filter (fun wo => extra.contains wo.workOrderNumber)).length = extra.length := by
  intro extra
  induction extra with
  | nil =>
    intro _ _
    simp
  | cons e ex ih =>
    intro hnd2 hsub
    obtain ⟨he, hex⟩ := List.nodup_cons.mp hnd2
    have hsplit : ∀ wo ∈ wos, ((e :: ex).contains wo.workOrderNumber)
        = ((wo.workOrderNumber == e) || ex.contains wo.workOrderNumber) := by
      intro wo _
      by_cases h1 : wo.workOrderNumber = e <;> by_cases h2 : wo.workOrderNumber ∈ ex
        <;> simp [h1, h2]
    have hdisj : ∀ wo ∈ wos, ¬((wo.workOrderNumber == e) = true
        ∧ ex.contains wo.workOrderNumber = true) := by
      intro wo _ hboth
      have h1 : wo.workOrderNumber = e := by simpa using hboth.1
      have h2 : wo.workOrderNumber ∈ ex := by simpa using hboth.2
      exact he (h1 ▸ h2)
    rw [List.filter_congr hsplit, length_filter_or_disjoint _ _ wos hdisj,
      length_filter_number_eq hnd (hsub e (by simp)),
      ih hex (fun d hd => hsub d (List.mem_cons_of_mem e hd))]
    simp [Nat.add_comm]

theorem length_filter_and_split {α : Type} (p q : α → Bool) :
    ∀ l : List α, (l.filter p).length
      = (l.filter (fun x => p x && q x)).length
        + (l.filter (fun x => p x && !q x)).length := by
  intro l
  induction l with
  | nil => rfl
  | cons a rest ih =>
    have e2 : (List.filter (fun x => p x && q x) (a :: rest)).length
        = (List.filter (fun x => p x && q x) rest).length
          + (if p a && q a then 1 else 0) := by
      cases hpq : p a && q a <;> simp [List.filter_cons, hpq]
    have e3 : (List.filter (fun x => p x && !q x) (a :: rest)).length
        = (List.filter (fun x => p x && !q x) rest).length
          + (if p a && !q a then 1 else 0) := by
      cases hpq : p a && !q a <;> simp [List.filter_cons, hpq]
    have e1 : (List.filter p (a :: rest)).length
        = (List.filter p rest).length + (if p a then 1 else 0) := by
      cases hp : p a <;> simp [List.filter_cons, hp]
    rw [e1, e2, e3, ih]
    cases hp : p a <;> cases hq : q a <;> simp [hp, hq]
      <;> omega

theorem length_filter_le_sum (p : WorkOrder → Bool) :
    ∀ wos : List WorkOrder,
      (∀ wo ∈ wos, p wo = true → 1 ≤ wo.dependsOnWorkOrderIds.length) →
      (wos.filter p).length
        ≤ (wos.map (fun wo => wo.dependsOnWorkOrderIds.length)).sum := by
  intro wos
  induction wos with
  | nil =>
    intro _
    simp
  | cons w rest ih =>
    intro h
    have hrest := ih (fun x hx => h x (List.mem_cons_of_mem w hx))
    rw [List.map_cons, List.sum_cons]
    cases hp : p w
    · have e1 : (List.filter p (w :: rest)).length = (List.filter p rest).length := by
        simp [List.filter_cons, hp]
      omega
    · have h1 := h w (by simp) hp
      have e1 : (List.filter p (w :: rest)).length
          = (List.filter p rest).length + 1 := by
        simp [List.filter_cons, hp]
      omega

theorem mem_eraseDups_loop {α : Type} [BEq α] [LawfulBEq α] (y : α) :
    ∀ as bs : List α, y ∈ List.eraseDups.loop as bs ↔ y ∈ as ∨ y ∈ bs := by
  intro as
  induction as with
  | nil =>
    intro bs
    simp [List.eraseDups.loop]
  | cons x rest ih =>
    intro bs
    rw [List.eraseDups.loop]
    cases hx : bs.elem x with
    | true =>
      rw [ih]
      have hxbs : x ∈ bs := by simpa using hx
      constructor
      · intro h
        rcases h with h | h
        · exact Or.inl (List.mem_cons_of_mem _ h)
        · exact Or.inr h
      · intro h
        rcases h with h | h
        · rcases List.mem_cons.mp h with h | h
          · exact Or.inr (h ▸ hxbs)
          · exact Or.inl h
        · exact Or.inr h
    | false =>
      rw [ih]
      constructor
      · intro h
        rcases h with h | h
        · exact Or.inl (List.mem_cons_of_mem _ h)
        · rcases List.mem_cons.mp h with h | h
          · exact Or.inl (by simp [h])
          · exact Or.inr h
      · intro h
        rcases h with h | h
        · rcases List.mem_cons.mp h with h | h
          · exact Or.inr (by simp [h])
          · exact Or.inl h
        · exact Or.inr (List.mem_cons_of_mem _ h)

theorem mem_eraseDups_iff {α : Type} [BEq α] [LawfulBEq α] (y : α) (l : List α) :
    y ∈ l.eraseDups ↔ y ∈ l := by
  rw [List.eraseDups, mem_eraseDups_loop]
  simp

/-- Pigeonhole: a sequence inside a finite list repeats. -/
theorem exists_index_repeat {α : Type} [DecidableEq α] (g : Nat → α) (l : List α)
    (hg : ∀ n, g n ∈ l) : ∃ i j, i < j ∧ g i = g j := by
  have hmaps : ∀ n ∈ Finset.range (l.length + 1), g n ∈ l.toFinset := by
    intro n _
    exact List.mem_toFinset.mpr (hg n)
  have hcard : l.toFinset.card < (Finset.range (l.length + 1)).card := by
    rw [Finset.card_range]
    exact Nat.lt_succ_of_le (List.toFinset_card_le l)
  obtain ⟨x, hx, y, hy, hxy, hfxy⟩ :=
    Finset.exists_ne_map_eq_of_card_lt_of_maps_to hcard hmaps
  rcases Nat.lt_or_ge x y with h | h
  · exact ⟨x, y, h, hfxy⟩
  · exact ⟨y, x, Nat.lt_of_le_of_ne h (Ne.symm hxy), hfxy.symm⟩

/-- Every order satisfying a predicate that always forces an unfinished
predecessor belongs to a dependency cycle; hence one exists. -/
theorem exists_cycle_of_step (wos : List WorkOrder) (P : WorkOrder → Prop)
    (hPmem : ∀ w, P w → w ∈ wos)
    (hstep : ∀ w, P w → ∃ w2, P w2 ∧ w2.workOrderNumber ∈ w.dependsOnWorkOrderIds)
    (w0 : WorkOrder) (h0 : P w0) : ∃ c, IsCycle wos c := by
  classical
  have hf : ∀ x : {w // P w}, ∃ y : {w // P w},
      y.1.workOrderNumber ∈ x.1.dependsOnWorkOrderIds := by
    intro x
    obtain ⟨w2, hw2, hdep⟩ := hstep x.1 x.2
    exact ⟨⟨w2, hw2⟩, hdep⟩
  choose f hfdep using hf
  have hg : ∀ n : Nat, (f^[n] ⟨w0, h0⟩).1 ∈ wos := fun n => hPmem _ (f^[n] ⟨w0, h0⟩).2
  obtain ⟨i, j, hij, heq⟩ := exists_index_repeat (fun n => (f^[n] ⟨w0, h0⟩).1) wos hg
  have heq2 : (f^[i] ⟨w0, h0⟩).1 = (f^[j] ⟨w0, h0⟩).1 := heq
  refine ⟨(List.range (j - i)).map (fun m => (f^[i + m] ⟨w0, h0⟩).1), ?_, ?_, ?_⟩
  · apply List.ne_nil_of_length_pos
    simp only [List.length_map, List.length_range]
    omega
  · intro w hw
    obtain ⟨m, _, hm⟩ := List.mem_map.mp hw
    exact hm ▸ hg (i + m)
  · intro idx w hidx
    have hlen : ((List.range (j - i)).map (fun m => (f^[i + m] ⟨w0, h0⟩).1)).length
        = j - i := by
      simp
    rw [List.getElem?_map] at hidx
    by_cases hlt : idx < j - i
    · rw [List.getElem?_range hlt] at hidx
      have hw : (f^[i + idx] ⟨w0, h0⟩).1 = w := by
        simpa using hidx
      rw [hlen]
      by_cases hend : idx + 1 < j - i
      · have hmod : (idx + 1) % (j - i) = idx + 1 := Nat.mod_eq_of_lt hend
        rw [hmod, List.getElem?_map, List.getElem?_range hend]
        refine ⟨(f^[i + (idx + 1)] ⟨w0, h0⟩).1, rfl, ?_⟩
        rw [← hw, show i + (idx + 1) = (i + idx) + 1 by omega,
          Function.iterate_succ_apply']
        exact hfdep _
      · have hji : idx + 1 = j - i := by omega
        have hmod : (idx + 1) % (j - i) = 0 := by
          rw [hji]
          exact Nat.mod_self _
        rw [hmod, List.getElem?_map, List.getElem?_range (by omega)]
        refine ⟨(f^[i + 0] ⟨w0, h0⟩).1, rfl, ?_⟩
        have h3 : j = (i + idx) + 1 := by omega
        rw [show i + 0 = i by rfl, heq2, h3, Function.iterate_succ_apply', ← hw]
        exact hfdep _
    · rw [List.getElem?_eq_none (by simpa using Nat.le_of_not_lt hlt)] at hidx
      cases hidx

/-! ## The Kahn loop: invariant establishment and preservation -/

theorem kahnLoop_cons (woMap : List (String × WorkOrder))
    (adj : List (String × List String)) (fuel : Nat) (inDeg : List (String × Int))
    (cur : String) (rest : List String) (sorted : List WorkOrder) (w : WorkOrder)
    (h : mapGet woMap cur = some w) :
    kahnLoop woMap adj (fuel + 1) inDeg (cur :: rest) sorted
      = kahnLoop woMap adj fuel
          (processDependents inDeg rest ((mapGet adj cur).getD [])).1
          (processDependents inDeg rest ((mapGet adj cur).getD [])).2
          (sorted ++ [w]) := by
  conv_lhs => rw [kahnLoop]
  simp only [h]

theorem initialQueue_mem_cases {inDeg : List (String × Int)} {n : String}
    (h : n ∈ initialQueue inDeg) : ∃ v, (n, v) ∈ inDeg ∧ v = 0 := by
  obtain ⟨p, hp, hpn⟩ := List.mem_map.mp h
  have hpf := List.mem_filter.mp hp
  refine ⟨p.2, ?_, by simpa using hpf.2⟩
  rw [← hpn, Prod.mk.eta]
  exact hpf.1

theorem initialQueue_nodup (wos : List WorkOrder) :
    (initialQueue (buildInDegree wos)).Nodup := by
  unfold initialQueue
  exact List.Nodup.sublist (List.Sublist.map _ (List.filter_sublist _))
    (buildInDegree_keys_nodup wos)

/-- The invariant holds at loop entry. -/
theorem kahnInv_initial {wos : List WorkOrder} (hnd : (numbersOf wos).Nodup) :
    KahnInv wos (buildInDegree wos) (initialQueue (buildInDegree wos)) [] := by
  have h0 : numbersOf ([] : List WorkOrder) = [] := rfl
  refine ⟨by simp, by simp [numbersOf], ?_, initialQueue_nodup wos, by simp [numbersOf],
    ?_, ?_, ?_⟩
  · intro n hn
    obtain ⟨v, hv, _⟩ := initialQueue_mem_cases hn
    obtain ⟨wo, hwo, hp⟩ := buildInDegree_mem hv
    have : n = wo.workOrderNumber := congrArg Prod.fst hp
    rw [this]
    exact List.mem_map.mpr ⟨wo, hwo, rfl⟩
  · intro w hw
    rw [h0, pendingCount_nil]
    exact buildInDegree_get hnd hw
  · intro w hw
    rw [h0, pendingCount_nil]
    constructor
    · intro h
      rcases h with h | h
      · obtain ⟨v, hv, hv0⟩ := initialQueue_mem_cases h
        have h1 := mapGet_eq_some_of_mem_nodup (buildInDegree_keys_nodup wos) hv
        have h2 := buildInDegree_get hnd hw
        rw [h1] at h2
        have := Option.some.inj h2
        rw [← this, hv0]
      · simp [numbersOf] at h
    · intro hlen
      left
      have hget : mapGet (buildInDegree wos) w.workOrderNumber = some 0 := by
        rw [buildInDegree_get hnd hw, hlen]
      have hmem := mem_of_mapGet_eq_some hget
      refine List.mem_map.mpr ⟨(w.workOrderNumber, 0), List.mem_filter.mpr ⟨hmem, ?_⟩, rfl⟩
      simp
  · intro i wo h
    simp at h

/-- The master run of Kahn's loop: under the invariant, with enough fuel,
the loop succeeds and re-establishes the invariant with an empty queue. -/
theorem kahnLoop_spec {wos : List WorkOrder} (hnd : (numbersOf wos).Nodup) :
    ∀ (fuel : Nat) (inDeg : List (String × Int)) (queue : List String)
      (sorted : List WorkOrder),
      KahnInv wos inDeg queue sorted →
      2 * (wos.filter (fun wo => !(queue.contains wo.workOrderNumber
          || (numbersOf sorted).contains wo.workOrderNumber))).length
        + queue.length < fuel →
      ∃ sorted2 inDeg2,
        kahnLoop (buildWorkOrderMap wos) (buildAdjacency wos) fuel inDeg queue sorted
          = .ok (sorted2, inDeg2) ∧ KahnInv wos inDeg2 [] sorted2 := by
  intro fuel
  induction fuel with
  | zero =>
    intro inDeg queue sorted hinv hm
    omega
  | succ fuel ih =>
    intro inDeg queue sorted hinv hm
    cases queue with
    | nil => exact ⟨sorted, inDeg, rfl, hinv⟩
    | cons cur rest =>
      have hcurnum : cur ∈ numbersOf wos := hinv.queue_mem cur (by simp)
      obtain ⟨curWo, hcurWo, hcwn⟩ := exists_order_of_mem_numbers hcurnum
      have hmapc : mapGet (buildWorkOrderMap wos) cur = some curWo := by
        rw [← hcwn]
        exact buildWorkOrderMap_get hnd hcurWo
      obtain ⟨habs, hpres⟩ := buildAdjacency_spec hnd cur
      obtain ⟨A, hA, hAmem, hAcount⟩ := hpres hcurnum
      have hAget : (mapGet (buildAdjacency wos) cur).getD [] = A := by
        rw [hA]
        rfl
      obtain ⟨extra, hq2, hxnd, hxmem, hmapfn⟩ := processDependents_spec A inDeg rest
      have hdone_n : numbersOf (sorted ++ [curWo]) = numbersOf sorted ++ [cur] := by
        simp [numbersOf, hcwn]
      have hcurfresh : cur ∉ numbersOf sorted := hinv.queue_fresh cur (by simp)
      have hcurrest : cur ∉ rest := (List.nodup_cons.mp hinv.queue_nodup).1
      have hrestnd : rest.Nodup := (List.nodup_cons.mp hinv.queue_nodup).2
      have hpend0 : pendingCount curWo (numbersOf sorted) = 0 :=
        (hinv.mem_iff curWo hcurWo).mp (Or.inl (by simp [hcwn]))
      have hinj : ∀ w1 ∈ wos, ∀ w2 ∈ wos,
          w1.workOrderNumber = w2.workOrderNumber → w1 = w2 :=
        fun w1 h1 w2 h2 he => List.inj_on_of_nodup_map hnd h1 h2 he
      have hAcount2 : ∀ w ∈ wos,
          A.count w.workOrderNumber = w.dependsOnWorkOrderIds.count cur := by
        intro w hw
        rw [hAcount w hw, if_pos hw]
      have hgetD : ∀ w ∈ wos, (mapGet inDeg w.workOrderNumber).getD 0
          = pendingCount w (numbersOf sorted) := by
        intro w hw
        rw [hinv.indeg_spec w hw]
        rfl
      have hpend2 : ∀ w : WorkOrder, pendingCount w (numbersOf (sorted ++ [curWo]))
          = pendingCount w (numbersOf sorted)
            - (w.dependsOnWorkOrderIds.count cur : Int) := by
        intro w
        rw [hdone_n]
        exact pendingCount_append w _ cur hcurfresh
      have hxnum : ∀ d ∈ extra, d ∈ numbersOf wos := by
        intro d hd
        obtain ⟨h11, h12⟩ := (hxmem d).mp hd
        have hcnt : 0 < A.count d := by omega
        exact hAmem d (List.count_pos_iff.mp hcnt)
      have hxfresh : ∀ d ∈ extra, d ∉ (cur :: rest) ∧ d ∉ numbersOf sorted := by
        intro d hd
        obtain ⟨w, hw, hwn⟩ := exists_order_of_mem_numbers (hxnum d hd)
        obtain ⟨h11, h12⟩ := (hxmem d).mp hd
        have hg := hgetD w hw
        rw [hwn] at hg
        have hpne : pendingCount w (numbersOf sorted) ≠ 0 := by omega
        have hnm : ¬(w.workOrderNumber ∈ (cur :: rest)
            ∨ w.workOrderNumber ∈ numbersOf sorted) :=
          fun hmem => hpne ((hinv.mem_iff w hw).mp hmem)
        constructor
        · intro hc
          rw [← hwn] at hc
          exact hnm (Or.inl hc)
        · intro hc
          rw [← hwn] at hc
          exact hnm (Or.inr hc)
      have hinv2 : KahnInv wos (processDependents inDeg rest A).1 (rest ++ extra)
          (sorted ++ [curWo]) := by
        refine ⟨?_, ?_, ?_, ?_, ?_, ?_, ?_, ?_⟩
        · intro w hw
          rcases List.mem_append.mp hw with h | h
          · exact hinv.sorted_mem w h
          · have : w = curWo := by simpa using h
            exact this ▸ hcurWo
        · rw [hdone_n]
          refine List.Nodup.append hinv.sorted_nodup (by simp) ?_
          intro x hx hx2
          have hxc : x = cur := by simpa using hx2
          exact hcurfresh (hxc ▸ hx)
        · intro n hn
          rcases List.mem_append.mp hn with h | h
          · exact hinv.queue_mem n (List.mem_cons_of_mem _ h)
          · exact hxnum n h
        · refine List.Nodup.append hrestnd hxnd ?_
          intro x hx hx2
          exact (hxfresh x hx2).1 (List.mem_cons_of_mem _ hx)
        · intro n hn
          rw [hdone_n]
          intro hmem
          rcases List.mem_append.mp hmem with hm1 | hm2
          · rcases List.mem_append.mp hn with hr | hx
            · exact hinv.queue_fresh n (List.mem_cons_of_mem _ hr) hm1
            · exact (hxfresh n hx).2 hm1
          · have hnc : n = cur := by simpa using hm2
            rcases List.mem_append.mp hn with hr | hx
            · exact hcurrest (hnc ▸ hr)
            · exact (hxfresh n hx).1 (by simp [hnc])
        · intro w hw
          have hAc := hAcount2 w hw
          by_cases hz : w.dependsOnWorkOrderIds.count cur = 0
          · rw [hmapfn, hAc, if_pos hz, hinv.indeg_spec w hw, hpend2 w, hz]
            simp
          · rw [hmapfn, hAc, if_neg hz, hgetD w hw, hpend2 w]
        · intro w hw
          have hp2 := hpend2 w
          have hnn2 := pendingCount_nonneg w (numbersOf (sorted ++ [curWo]))
          have hnn := pendingCount_nonneg w (numbersOf sorted)
          have hAc := hAcount2 w hw
          constructor
          · intro h
            rcases h with hq | hs
            · rcases List.mem_append.mp hq with hr | hx
              · have hp0 : pendingCount w (numbersOf sorted) = 0 :=
                  (hinv.mem_iff w hw).mp (Or.inl (List.mem_cons_of_mem _ hr))
                omega
              · obtain ⟨h11, h12⟩ := (hxmem _).mp hx
                have hg := hgetD w hw
                rw [hAc] at h12
                omega
            · rw [hdone_n] at hs
              rcases List.mem_append.mp hs with hss | hsc
              · have hp0 : pendingCount w (numbersOf sorted) = 0 :=
                  (hinv.mem_iff w hw).mp (Or.inr hss)
                omega
              · have hwc : w.workOrderNumber = cur := by simpa using hsc
                have hweq : w = curWo := hinj w hw curWo hcurWo (by rw [hwc, hcwn])
                rw [hweq] at hp2 hnn2 ⊢
                omega
          · intro hz
            by_cases hp0 : pendingCount w (numbersOf sorted) = 0
            · rcases (hinv.mem_iff w hw).mpr hp0 with hq | hs
              · rcases List.mem_cons.mp hq with hc | hr
                · right
                  rw [hdone_n]
                  exact List.mem_append.mpr (Or.inr (by simp [hc]))
                · exact Or.inl (List.mem_append.mpr (Or.inl hr))
              · right
                rw [hdone_n]
                exact List.mem_append.mpr (Or.inl hs)
            · left
              refine List.mem_append.mpr (Or.inr ((hxmem _).mpr ⟨?_, ?_⟩))
              · have hg := hgetD w hw
                omega
              · rw [hgetD w hw, hAc]
                omega
        · intro i w hi
          by_cases hlt : i < sorted.length
          · rw [List.getElem?_append, if_pos hlt] at hi
            intro d hd
            obtain ⟨j, hj, dep, hdep, hnum⟩ := hinv.resp i w hi d hd
            refine ⟨j, hj, dep, ?_, hnum⟩
            have hjlt : j < sorted.length := by omega
            rw [List.getElem?_append, if_pos hjlt]
            exact hdep
          · by_cases hie : i = sorted.length
            · subst hie
              rw [List.getElem?_concat_length] at hi
              have hwc : curWo = w := Option.some.inj hi
              intro d hd
              rw [← hwc] at hd
              have hfil : List.filter (fun x => !(numbersOf sorted).contains x)
                  curWo.dependsOnWorkOrderIds = [] := by
                have h0 := hpend0
                unfold pendingCount at h0
                have hl : (List.filter (fun x => !(numbersOf sorted).contains x)
                    curWo.dependsOnWorkOrderIds).length = 0 := by exact_mod_cast h0
                exact List.length_eq_zero.mp hl
              have hcont : d ∈ numbersOf sorted := by
                have := List.filter_eq_nil_iff.mp hfil d hd
                simpa using this
              obtain ⟨dep, hdepmem, hdepnum⟩ := exists_order_of_mem_numbers hcont
              obtain ⟨j, hjlt, hje⟩ := List.getElem_of_mem hdepmem
              refine ⟨j, by omega, dep, ?_, hdepnum⟩
              rw [List.getElem?_append, if_pos hjlt, List.getElem?_eq_getElem hjlt, hje]
            · intro d hd
              exfalso
              have hlen : (sorted ++ [curWo]).length ≤ i := by
                simp only [List.length_append, List.length_cons, List.length_nil]
                omega
              rw [List.getElem?_eq_none hlen] at hi
              cases hi
      have hsplit1 : ∀ wo ∈ wos,
          (!((rest ++ extra).contains wo.workOrderNumber
            || (numbersOf (sorted ++ [curWo])).contains wo.workOrderNumber))
          = ((!((cur :: rest).contains wo.workOrderNumber
            || (numbersOf sorted).contains wo.workOrderNumber))
            && !(extra.contains wo.workOrderNumber)) := by
        intro wo _
        rw [Bool.eq_iff_iff]
        simp [hdone_n]
        tauto
      have hext_pointwise : ∀ wo ∈ wos,
          ((!((cur :: rest).contains wo.workOrderNumber
            || (numbersOf sorted).contains wo.workOrderNumber))
            && (extra.contains wo.workOrderNumber))
          = extra.contains wo.workOrderNumber := by
        intro wo hwo
        by_cases hx : wo.workOrderNumber ∈ extra
        · have hf1 : wo.workOrderNumber ∉ (cur :: rest) := (hxfresh _ hx).1
          have hf2 : wo.workOrderNumber ∉ numbersOf sorted := (hxfresh _ hx).2
          simp [hx, hf1, hf2]
        · simp [hx]
      rw [kahnLoop_cons _ _ _ _ _ _ _ curWo hmapc, hAget, hq2]
      apply ih _ _ _ hinv2
      have hsplit := length_filter_and_split
        (fun wo => !((cur :: rest).contains wo.workOrderNumber
          || (numbersOf sorted).contains wo.workOrderNumber))
        (fun wo => extra.contains wo.workOrderNumber) wos
      have hcong1 : wos.filter (fun wo => !((rest ++ extra).contains wo.workOrderNumber
            || (numbersOf (sorted ++ [curWo])).contains wo.workOrderNumber))
          = wos.filter (fun wo =>
              (!((cur :: rest).contains wo.workOrderNumber
                || (numbersOf sorted).contains wo.workOrderNumber))
              && !(extra.contains wo.workOrderNumber)) :=
        List.filter_congr hsplit1
      have hcong2 : wos.filter (fun wo =>
            (!((cur :: rest).contains wo.workOrderNumber
              || (numbersOf sorted).contains wo.workOrderNumber))
            && (extra.contains wo.workOrderNumber))
          = wos.filter (fun wo => extra.contains wo.workOrderNumber) :=
        List.filter_congr hext_pointwise
      have hextlen := length_filter_contains_eq hnd extra hxnd hxnum
      rw [hcong1, List.length_append]
      rw [hcong2] at hsplit
      have hlc : (cur :: rest).length = rest.length + 1 := rfl
      omega

/-- The loop as `topologicalSort` invokes it always succeeds when the
order identifiers are pairwise distinct, with the invariant at exit. -/
theorem topologicalSortRun_ok (wos : List WorkOrder) (hnd : (numbersOf wos).Nodup) :
    ∃ sorted inDeg, topologicalSortRun wos = .ok (sorted, inDeg)
      ∧ KahnInv wos inDeg [] sorted := by
  have hinit := kahnInv_initial hnd
  have hq0nd := initialQueue_nodup wos
  have hq0mem : ∀ n ∈ initialQueue (buildInDegree wos), n ∈ numbersOf wos :=
    hinit.queue_mem
  have hU0 : ∀ wo ∈ wos,
      (!((initialQueue (buildInDegree wos)).contains wo.workOrderNumber
        || (numbersOf ([] : List WorkOrder)).contains wo.workOrderNumber)) = true →
      1 ≤ wo.dependsOnWorkOrderIds.length := by
    intro wo hwo hcond
    by_contra hlen
    have hlen0 : wo.dependsOnWorkOrderIds.length = 0 := by omega
    have hp0 : pendingCount wo (numbersOf ([] : List WorkOrder)) = 0 := by
      have h0 : numbersOf ([] : List WorkOrder) = [] := rfl
      rw [h0, pendingCount_nil, hlen0]
      rfl
    rcases (hinit.mem_iff wo hwo).mpr hp0 with h | h
    · simp [h] at hcond
    · simp [numbersOf] at h
  have hsumle := length_filter_le_sum
    (fun wo => !((initialQueue (buildInDegree wos)).contains wo.workOrderNumber
      || (numbersOf ([] : List WorkOrder)).contains wo.workOrderNumber)) wos hU0
  have hqlen := length_filter_contains_eq hnd _ hq0nd hq0mem
  have hsplit := length_filter_and_split (fun _ : WorkOrder => true)
    (fun wo => (initialQueue (buildInDegree wos)).contains wo.workOrderNumber
      || (numbersOf ([] : List WorkOrder)).contains wo.workOrderNumber) wos
  have hcongT : wos.filter (fun _ => true) = wos := List.filter_true wos
  have hcongQ : wos.filter (fun wo =>
        (fun _ : WorkOrder => true) wo
        && ((initialQueue (buildInDegree wos)).contains wo.workOrderNumber
          || (numbersOf ([] : List WorkOrder)).contains wo.workOrderNumber))
      = wos.filter
          (fun wo => (initialQueue (buildInDegree wos)).contains wo.workOrderNumber) := by
    apply List.filter_congr
    intro wo _
    simp [numbersOf]
  have hcongU : wos.filter (fun wo =>
        (fun _ : WorkOrder => true) wo
        && !((initialQueue (buildInDegree wos)).contains wo.workOrderNumber
          || (numbersOf ([] : List WorkOrder)).contains wo.workOrderNumber))
      = wos.filter
          (fun wo => !((initialQueue (buildInDegree wos)).contains wo.workOrderNumber
            || (numbersOf ([] : List WorkOrder)).contains wo.workOrderNumber)) := by
    apply List.filter_congr
    intro wo _
    simp
  rw [hcongT, hcongQ, hcongU] at hsplit
  have hmeas : 2 * (wos.filter
      (fun wo => !((initialQueue (buildInDegree wos)).contains wo.workOrderNumber
        || (numbersOf ([] : List WorkOrder)).contains wo.workOrderNumber))).length
      + (initialQueue (buildInDegree wos)).length < topoFuel wos := by
    unfold topoFuel
    omega
  obtain ⟨sorted2, inDeg2, hrun, hfin⟩ :=
    kahnLoop_spec hnd (topoFuel wos) (buildInDegree wos)
      (initialQueue (buildInDegree wos)) [] hinit hmeas
  exact ⟨sorted2, inDeg2, hrun, hfin⟩

/-! ## From the exit invariant to the specification of `topologicalSort` -/

/-- No member of a dependency cycle is ever emitted by the loop. -/
theorem cycle_nodes_not_sorted {wos sorted : List WorkOrder} {inDeg : List (String × Int)}
    (hnd : (numbersOf wos).Nodup) (hinv : KahnInv wos inDeg [] sorted)
    {cyc : List WorkOrder} (hcyc : IsCycle wos cyc) :
    ∀ w ∈ cyc, w ∉ sorted := by
  obtain ⟨hne, hmem, hlink⟩ := hcyc
  have hidx : ∀ i : Nat, ∀ w : WorkOrder, sorted[i]? = some w → w ∉ cyc := by
    intro i
    induction i using Nat.strong_induction_on with
    | h i IH =>
      intro w hi hwc
      obtain ⟨m, hm, hme⟩ := List.getElem_of_mem hwc
      have hmq : cyc[m]? = some w := by rw [List.getElem?_eq_getElem hm, hme]
      obtain ⟨w2, hw2get, hw2dep⟩ := hlink m w hmq
      obtain ⟨j, hj, dep, hdep, hdepnum⟩ := hinv.resp i w hi w2.workOrderNumber hw2dep
      have hw2mem : w2 ∈ cyc := List.getElem?_mem hw2get
      have hdepsorted : dep ∈ sorted := List.getElem?_mem hdep
      have hdepwos : dep ∈ wos := hinv.sorted_mem dep hdepsorted
      have hw2wos : w2 ∈ wos := hmem w2 hw2mem
      have heqd : dep = w2 := List.inj_on_of_nodup_map hnd hdepwos hw2wos hdepnum
      exact IH j hj w2 (heqd ▸ hdep) hw2mem
  intro w hw hws
  obtain ⟨i, hilt, hie⟩ := List.getElem_of_mem hws
  exact hidx i w (by rw [List.getElem?_eq_getElem hilt, hie]) hw

/-- An order of `wos` whose identifier the loop never emitted forces the
sorted output to be strictly shorter than the input. -/
theorem sorted_length_lt_of_unsorted {wos sorted : List WorkOrder}
    {inDeg : List (String × Int)}
    (hinv : KahnInv wos inDeg [] sorted) {w : WorkOrder} (hw : w ∈ wos)
    (hwn : w.workOrderNumber ∉ numbersOf sorted) :
    sorted.length < wos.length := by
  have hsub : numbersOf sorted ⊆ (numbersOf wos).erase w.workOrderNumber := by
    intro n hn
    obtain ⟨s, hs, hsn⟩ := exists_order_of_mem_numbers hn
    have hsw : s ∈ wos := hinv.sorted_mem s hs
    have hnwos : n ∈ numbersOf wos := hsn ▸ List.mem_map.mpr ⟨s, hsw, rfl⟩
    have hne : n ≠ w.workOrderNumber := by
      intro he
      exact hwn (he ▸ hn)
    exact (List.mem_erase_of_ne hne).mpr hnwos
  have hsp : (numbersOf sorted).Subperm ((numbersOf wos).erase w.workOrderNumber) :=
    List.Nodup.subperm hinv.sorted_nodup hsub
  have hlen1 := hsp.length_le
  have hwmem : w.workOrderNumber ∈ numbersOf wos := List.mem_map.mpr ⟨w, hw, rfl⟩
  have hlen2 := List.length_erase_of_mem hwmem
  have hlen3 : (numbersOf sorted).length = sorted.length := by simp [numbersOf]
  have hlen4 : (numbersOf wos).length = wos.length := by simp [numbersOf]
  have hpos : 0 < wos.length := List.length_pos_of_mem hw
  omega

/-- With every dependency present and no cycle, the loop sorts everything. -/
theorem all_sorted_of_acyclic {wos sorted : List WorkOrder} {inDeg : List (String × Int)}
    (hnd : (numbersOf wos).Nodup)
    (hdeps : ∀ wo ∈ wos, ∀ d ∈ wo.dependsOnWorkOrderIds, d ∈ numbersOf wos)
    (hinv : KahnInv wos inDeg [] sorted) (hnocyc : ¬ ∃ cyc, IsCycle wos cyc) :
    ∀ w ∈ wos, w ∈ sorted := by
  by_contra hcon
  push_neg at hcon
  obtain ⟨w0, hw0, hw0s⟩ := hcon
  apply hnocyc
  refine exists_cycle_of_step wos (fun w => w ∈ wos ∧ w ∉ sorted) (fun w h => h.1) ?_ w0
    ⟨hw0, hw0s⟩
  intro w hw
  obtain ⟨hwm, hws⟩ := hw
  have hnn : w.workOrderNumber ∉ numbersOf sorted := by
    intro hn
    obtain ⟨s, hsmem, hsn⟩ := exists_order_of_mem_numbers hn
    have hsw : s = w := List.inj_on_of_nodup_map hnd (hinv.sorted_mem s hsmem) hwm hsn
    exact hws (hsw ▸ hsmem)
  have hpne : pendingCount w (numbersOf sorted) ≠ 0 := by
    intro hp0
    rcases (hinv.mem_iff w hwm).mpr hp0 with h | h
    · simp at h
    · exact hnn h
  have hfil : w.dependsOnWorkOrderIds.filter
      (fun d => !(numbersOf sorted).contains d) ≠ [] := by
    intro hfe
    apply hpne
    unfold pendingCount
    rw [hfe]
    rfl
  obtain ⟨d, hd⟩ := List.exists_mem_of_ne_nil _ hfil
  have hdf := List.mem_filter.mp hd
  have hdmem : d ∈ w.dependsOnWorkOrderIds := hdf.1
  have hdns : d ∉ numbersOf sorted := by simpa using hdf.2
  obtain ⟨w2, hw2, hw2n⟩ := exists_order_of_mem_numbers (hdeps w hwm d hdmem)
  refine ⟨w2, ⟨hw2, ?_⟩, hw2n ▸ hdmem⟩
  intro hw2s
  exact hdns (hw2n ▸ List.mem_map.mpr ⟨w2, hw2s, rfl⟩)

/-- C7.  For inputs with pairwise-distinct identifiers whose predecessor
identifiers all refer to orders of the input: with an acyclic dependency
graph, `topologicalSort` succeeds with a permutation of the input in which
every order follows all of its predecessors; with a cycle, the loop still
terminates and `topologicalSort` fails with a circular-dependency error
enumerating exactly the identifiers of the orders left with non-zero final
in-degree, a set containing every node of every cycle. -/
theorem topologicalSort_spec (wos : List WorkOrder)
    (hnd : (numbersOf wos).Nodup)
    (hdeps : ∀ wo ∈ wos, ∀ d ∈ wo.dependsOnWorkOrderIds, d ∈ numbersOf wos) :
    ((¬ ∃ cyc, IsCycle wos cyc) →
      ∃ sorted, topologicalSort wos = .ok sorted
        ∧ sorted.Perm wos ∧ RespectsDeps sorted)
    ∧ ((∃ cyc, IsCycle wos cyc) →
      ∃ sorted inDeg L,
        topologicalSortRun wos = .ok (sorted, inDeg)
        ∧ topologicalSort wos = .error (.circularDependency L)
        ∧ L = (wos.filter
            (fun wo => !((mapGet inDeg wo.workOrderNumber).getD 0 == 0))).map
            (fun wo => wo.workOrderNumber)
        ∧ ∀ cyc, IsCycle wos cyc → ∀ w ∈ cyc, w.workOrderNumber ∈ L) := by
  by_cases hemp : wos = []
  · subst hemp
    constructor
    · intro _
      refine ⟨[], rfl, List.Perm.refl [], ?_⟩
      intro i wo h
      simp at h
    · intro hcyc
      obtain ⟨cyc, hne, hmem, _⟩ := hcyc
      obtain ⟨x, hx⟩ := List.exists_mem_of_ne_nil _ hne
      exact absurd (hmem x hx) (by simp)
  · obtain ⟨sorted, inDeg, hrun, hfin⟩ := topologicalSortRun_ok wos hnd
    have hnum_unsorted : ∀ cyc, IsCycle wos cyc → ∀ w ∈ cyc,
        w.workOrderNumber ∉ numbersOf sorted := by
      intro cyc hcyc w hw hn
      obtain ⟨s, hsmem, hsn⟩ := exists_order_of_mem_numbers hn
      have hwwos := hcyc.2.1 w hw
      have hsw : s = w :=
        List.inj_on_of_nodup_map hnd (hfin.sorted_mem s hsmem) hwwos hsn
      exact cycle_nodes_not_sorted hnd hfin hcyc w hw (hsw ▸ hsmem)
    constructor
    · intro hnocyc
      have hall := all_sorted_of_acyclic hnd hdeps hfin hnocyc
      have hperm : sorted.Perm wos := by
        have hsnd : sorted.Nodup := List.Nodup.of_map _ hfin.sorted_nodup
        have hwnd : wos.Nodup := List.Nodup.of_map _ hnd
        have h1 : sorted.Subperm wos :=
          List.Nodup.subperm hsnd (fun x hx => hfin.sorted_mem x hx)
        have h2 : wos.Subperm sorted :=
          List.Nodup.subperm hwnd (fun x hx => hall x hx)
        exact List.Subperm.perm_of_length_le h1 h2.length_le
      refine ⟨sorted, ?_, hperm, hfin.resp⟩
      have hlen : sorted.length = wos.length := hperm.length_eq
      unfold topologicalSort
      rw [if_neg (by simp [hemp]), hrun]
      simp [hlen]
    · intro hcyc0
      obtain ⟨cyc0, hcyc0⟩ := hcyc0
      obtain ⟨x, hx⟩ := List.exists_mem_of_ne_nil _ hcyc0.1
      have hxwos : x ∈ wos := hcyc0.2.1 x hx
      have hxn : x.workOrderNumber ∉ numbersOf sorted :=
        hnum_unsorted cyc0 hcyc0 x hx
      have hlt := sorted_length_lt_of_unsorted hfin hxwos hxn
      have hne2 : sorted.length ≠ wos.length := Nat.ne_of_lt hlt
      refine ⟨sorted, inDeg,
        (wos.filter (fun wo =>
          !((numbersOf sorted).contains wo.workOrderNumber))).map
          (fun wo => wo.workOrderNumber), hrun, ?_, ?_, ?_⟩
      · unfold topologicalSort
        rw [if_neg (by simp [hemp]), hrun]
        simp [hne2]
      · have hpoint : ∀ wo ∈ wos,
            (!((numbersOf sorted).contains wo.workOrderNumber))
            = (!((mapGet inDeg wo.workOrderNumber).getD 0 == 0)) := by
          intro wo hwo
          have hg : (mapGet inDeg wo.workOrderNumber).getD 0
              = pendingCount wo (numbersOf sorted) := by
            rw [hfin.indeg_spec wo hwo]
            rfl
          by_cases hmem : wo.workOrderNumber ∈ numbersOf sorted
          · have hp0 : pendingCount wo (numbersOf sorted) = 0 :=
              (hfin.mem_iff wo hwo).mp (Or.inr hmem)
            rw [hg, hp0]
            simp [hmem]
          · have hpne : pendingCount wo (numbersOf sorted) ≠ 0 := by
              intro hp0
              rcases (hfin.mem_iff wo hwo).mpr hp0 with h | h
              · simp at h
              · exact hmem h
            rw [hg]
            simp [hmem, hpne]
        exact congrArg (List.map (fun wo => wo.workOrderNumber))
          (List.filter_congr hpoint)
      · intro cyc hcyc w hw
        have hwos := hcyc.2.1 w hw
        have hnn := hnum_unsorted cyc hcyc w hw
        exact List.mem_map.mpr ⟨w, List.mem_filter.mpr ⟨hwos, by simp [hnn]⟩, rfl⟩

/-- A two-order chain used to exercise the sorter: `topoB` depends on
`topoA`. -/
def topoA : WorkOrder := ⟨"A", "A", 0, 60, 60, false, []⟩

/-- The dependent order of the chain. -/
def topoB : WorkOrder := ⟨"B", "A", 0, 60, 60, false, ["A"]⟩

/-- Witness for C7: `topologicalSort_spec` applied to the chain `A ← B`. -/
theorem topologicalSort_spec_witness :
    (numbersOf [topoA, topoB]).Nodup
    ∧ (∀ wo ∈ [topoA, topoB], ∀ d ∈ wo.dependsOnWorkOrderIds,
        d ∈ numbersOf [topoA, topoB])
    ∧ (((¬ ∃ cyc, IsCycle [topoA, topoB] cyc) →
        ∃ sorted, topologicalSort [topoA, topoB] = .ok sorted
          ∧ sorted.Perm [topoA, topoB] ∧ RespectsDeps sorted)
      ∧ ((∃ cyc, IsCycle [topoA, topoB] cyc) →
        ∃ sorted inDeg L,
          topologicalSortRun [topoA, topoB] = .ok (sorted, inDeg)
          ∧ topologicalSort [topoA, topoB] = .error (.circularDependency L)
          ∧ L = ([topoA, topoB].filter
              (fun wo => !((mapGet inDeg wo.workOrderNumber).getD 0 == 0))).map
              (fun wo => wo.workOrderNumber)
          ∧ ∀ cyc, IsCycle [topoA, topoB] cyc → ∀ w ∈ cyc,
              w.workOrderNumber ∈ L)) :=
  ⟨by decide, by decide, topologicalSort_spec [topoA, topoB] (by decide) (by decide)⟩

/-- C8 counterexample: an input whose only order names a predecessor that
is not part of the input.  The linearizer does not fail with any
missing-predecessor error naming the absent identifier `A` (its error type
has no such kind): it reports a circular-dependency error naming the
dependent order `B`.  Only the separate validation helper, which the
reflow pipeline never invokes before sorting, lists `A` as missing. -/
theorem missing_predecessor_counterexample :
    topologicalSort [topoB] = .error (.circularDependency ["B"])
    ∧ "A" ∉ ["B"]
    ∧ (validateWorkOrderDependencies [topoB]).missingDependencies = ["A"] :=
  ⟨rfl, by decide, rfl⟩

/-- C8 (amended).  When an order's predecessor identifier refers to no
order of the input (identifiers pairwise distinct), `topologicalSort`
fails with a circular-dependency error whose list contains the dependent
order's identifier — not a missing-predecessor error naming the missing
identifier; `validateWorkOrderDependencies` is the function that names the
missing identifier in `missingDependencies` and declares the input
invalid. -/
theorem missing_predecessor_behavior (wos : List WorkOrder)
    (hnd : (numbersOf wos).Nodup) (wo : WorkOrder) (hwo : wo ∈ wos) (d : String)
    (hd : d ∈ wo.dependsOnWorkOrderIds) (hmiss : d ∉ numbersOf wos) :
    (∃ L, topologicalSort wos = .error (.circularDependency L)
      ∧ wo.workOrderNumber ∈ L)
    ∧ d ∈ (validateWorkOrderDependencies wos).missingDependencies
    ∧ (validateWorkOrderDependencies wos).valid = false := by
  obtain ⟨sorted, inDeg, hrun, hfin⟩ := topologicalSortRun_ok wos hnd
  have hwn : wo.workOrderNumber ∉ numbersOf sorted := by
    intro hn
    have hp0 : pendingCount wo (numbersOf sorted) = 0 :=
      (hfin.mem_iff wo hwo).mp (Or.inr hn)
    have hdns : d ∉ numbersOf sorted := by
      intro hdn
      obtain ⟨s, hsmem, hsn⟩ := exists_order_of_mem_numbers hdn
      exact hmiss (hsn ▸ List.mem_map.mpr ⟨s, hfin.sorted_mem s hsmem, rfl⟩)
    have hdf : d ∈ wo.dependsOnWorkOrderIds.filter
        (fun x => !(numbersOf sorted).contains x) :=
      List.mem_filter.mpr ⟨hd, by simp [hdns]⟩
    have hlpos : 0 < (wo.dependsOnWorkOrderIds.filter
        (fun x => !(numbersOf sorted).contains x)).length :=
      List.length_pos_of_mem hdf
    unfold pendingCount at hp0
    omega
  have hlt := sorted_length_lt_of_unsorted hfin hwo hwn
  have hne2 : sorted.length ≠ wos.length := Nat.ne_of_lt hlt
  have hemp : wos ≠ [] := by
    intro he
    rw [he] at hwo
    simp at hwo
  have hmemflat : d ∈ wos.flatMap (fun w2 => w2.dependsOnWorkOrderIds.filter
      (fun depId => !(numbersOf wos).contains depId)) :=
    List.mem_flatMap.mpr ⟨wo, hwo, List.mem_filter.mpr ⟨hd, by simp [hmiss]⟩⟩
  have hie : (wos.flatMap (fun w2 => w2.dependsOnWorkOrderIds.filter
      (fun depId => !(numbersOf wos).contains depId))).isEmpty = false := by
    cases hc : wos.flatMap (fun w2 => w2.dependsOnWorkOrderIds.filter
        (fun depId => !(numbersOf wos).contains depId)) with
    | nil =>
      rw [hc] at hmemflat
      simp at hmemflat
    | cons a l => rfl
  refine ⟨⟨(wos.filter (fun w2 =>
      !((numbersOf sorted).contains w2.workOrderNumber))).map
      (fun w2 => w2.workOrderNumber), ?_, ?_⟩, ?_, ?_⟩
  · unfold topologicalSort
    rw [if_neg (by simp [hemp]), hrun]
    simp [hne2]
  · exact List.mem_map.mpr ⟨wo, List.mem_filter.mpr ⟨hwo, by simp [hwn]⟩, rfl⟩
  · show d ∈ (wos.flatMap (fun w2 => w2.dependsOnWorkOrderIds.filter
      (fun depId => !(numbersOf wos).contains depId))).eraseDups
    rw [mem_eraseDups_iff]
    exact hmemflat
  · unfold validateWorkOrderDependencies
    simp only [hie]
    rfl

/-- Witness for C8: `missing_predecessor_behavior` applied to the single
order `B` depending on the absent identifier `A`. -/
theorem missing_predecessor_behavior_witness :
    (numbersOf [topoB]).Nodup ∧ topoB ∈ [topoB]
    ∧ "A" ∈ topoB.dependsOnWorkOrderIds ∧ "A" ∉ numbersOf [topoB]
    ∧ ((∃ L, topologicalSort [topoB] = .error (.circularDependency L)
        ∧ topoB.workOrderNumber ∈ L)
      ∧ "A" ∈ (validateWorkOrderDependencies [topoB]).missingDependencies
      ∧ (validateWorkOrderDependencies [topoB]).valid = false) :=
  ⟨by decide, by decide, by decide, by decide,
    missing_predecessor_behavior [topoB] (by decide) topoB (by decide) "A" (by decide)
      (by decide)⟩

end Reflow
